import Mathlib

/-!
# Verification of `elastictabstops.py` (tommie/elastic-tabstops)

Shallow embedding of the Python 2 module `src/py/elastictabstops.py` and
proofs about it.  The module has three public entry points:

* `TabStops.get_tab_size` — a pure width policy;
* `iter_tab_sizes` — the stateless batch width computation;
* `TextBlock` — the incremental text block, whose single mutation
  primitive is `TextBlock._splice` and whose heaps are Python `heapq`
  min-heaps of negated widths.

The source is a Python 2 program (`xrange`, `dict.iteritems` in the test
file), so `/` on two `int`s is *floor* division; cell sizes, policy
parameters and tab sizes are non-negative integers in everything the
repository exercises, so they are embedded as `Nat` (with `Int` used
where the code stores negated values inside heaps).

Python's aliased mutable objects (the shared per-column heaps of
`TextBlock`, and the shared boxed integers of `_iter_tab_sizes`) are
embedded as explicit stores: an allocation counter plus a map from ids
to contents.  Mutating a shared object becomes updating the store at its
id, which preserves the aliasing behaviour of the source exactly.
-/

namespace ElasticTabstops

/-! ## `TabStops` (`elastictabstops.py` lines 21–64) -/

/-- The `TabStops` configuration object: `margin`, `min_size`, `step_size`
(defaults `1, 1, 1` in the source). -/
structure TabStops where
  margin : Nat := 1
  min_size : Nat := 1
  step_size : Nat := 1
deriving Repr, DecidableEq

/-- `TabStops.get_tab_size` (lines 47–64).  The source computes
`margin + max(int(math.ceil(text_size / step_size)) * step_size, min_size)`.
Under Python 2, `text_size / step_size` on non-negative `int`s is *floor*
division (`Nat.div` here), after which `math.ceil` and `int` are the
identity.  So for integer inputs the expression reduces to
`margin + max((text_size / step_size) * step_size, min_size)`. -/
def TabStops.get_tab_size (t : TabStops) (text_size : Nat) : Nat :=
  t.margin + max (text_size / t.step_size * t.step_size) t.min_size

/-- Modelled from the spec: the width the spec (and the function's own
docstring, "NB: We round up here") prescribes, with the *true mathematical
ceiling* of the exact quotient: `margin + max(ceil(size / step_size) *
step_size, min_size)`.  Stated separately so it can be compared against
the source's `TabStops.get_tab_size`. -/
def TabStops.get_tab_size_spec (t : TabStops) (text_size : Nat) : Nat :=
  t.margin + max ((text_size + t.step_size - 1) / t.step_size * t.step_size) t.min_size

/-! ## The batch algorithm `_iter_tab_sizes` / `iter_tab_sizes` (lines 66–174)

`_iter_tab_sizes` keeps a list `tab_sizes` of *boxed* integers
(one-element Python lists) shared between the output rows of a run; a
later `update_list_max` on a box is visible through every row holding it.
The boxes are embedded as ids into a store `val : Nat → Int` with an
allocation counter, and each output row is a list of ids, dereferenced
only after the whole pass (matching the source, where `_iter_tab_sizes`
finishes the full loop — including the `end_tab_sizes` fold — before
`iter_tab_sizes` unboxes anything). -/

variable {α : Type}

/-- `_ignore_last` (lines 68–82): every item of the list but the last. -/
def ignore_last (l : List α) : List α := l.dropLast

/-- The mutable state of `_iter_tab_sizes`: the box store and the current
`tab_sizes` list of box ids. -/
structure BatchSt where
  nextId : Nat
  val : Nat → Int
  ts : List Nat

/-- Allocate a fresh box holding `w` and append its id to `tab_sizes`
(the `tab_sizes.append(size_type(tab_size))` branch, line 103). -/
def boxAlloc (st : BatchSt) (w : Int) : BatchSt :=
  { nextId := st.nextId + 1
    val := fun j => if j = st.nextId then w else st.val j
    ts := st.ts ++ [st.nextId] }

/-- Max-update the box with id `id` in place (the
`size_update_func(tab_sizes[col], tab_size)` branch, line 106, with
`update_list_max` from line 169). -/
def boxUpdateMax (st : BatchSt) (id : Nat) (w : Int) : BatchSt :=
  { st with val := fun j => if j = id then max (st.val j) w else st.val j }

/-- The loop of `append_tab_sizes` (lines 95–108) over an already
width-mapped list `ws`, starting at column `col`: a column beyond the
current `tab_sizes` allocates a fresh box (the source asserts
`col == len(tab_sizes)`, which holds because `col` counts up by one),
an existing column is max-updated.  The source's return value `col + 1`
equals `col + ws.length` here. -/
def appendTabSizes (st : BatchSt) (col : Nat) : List Int → BatchSt
  | [] => st
  | w :: ws =>
    if h : col < st.ts.length then
      appendTabSizes (boxUpdateMax st (st.ts.get ⟨col, h⟩) w) (col + 1) ws
    else
      appendTabSizes (boxAlloc st w) (col + 1) ws

/-- The per-cell widths of one line:
`map(tab_stops.get_tab_size, map(size_func, _ignore_last(line)))`
(lines 114–116). -/
def lineWidths (t : TabStops) (f : α → Nat) (line : List α) : List Int :=
  (ignore_last line).map (fun c => (t.get_tab_size (f c) : Int))

/-- One iteration of the main loop of `_iter_tab_sizes` (lines 113–119):
fold the line's widths in, truncate `tab_sizes` to the line's column
count, and record (a copy of) the truncated id list as this line's row. -/
def batchLineStep (t : TabStops) (f : α → Nat) (st : BatchSt) (line : List α) :
    BatchSt × List Nat :=
  let ws := lineWidths t f line
  let st' := appendTabSizes st 0 ws
  let st'' := { st' with ts := st'.ts.take ws.length }
  (st'', st''.ts)

/-- The main loop of `_iter_tab_sizes` over all lines, collecting the
per-line box-id rows (`line_columns`). -/
def batchLines (t : TabStops) (f : α → Nat) :
    BatchSt → List (List α) → BatchSt × List (List Nat)
  | st, [] => (st, [])
  | st, line :: rest =>
    let p := batchLineStep t f st line
    let q := batchLines t f p.1 rest
    (q.1, p.2 :: q.2)

/-- The initial state of `_iter_tab_sizes` (line 93):
`tab_sizes = [size_type(x) for x in start_tab_sizes]` — one fresh box per
start hint, holding the hint value unchanged. -/
def batchInit (start_tab_sizes : List Int) : BatchSt :=
  { nextId := start_tab_sizes.length
    val := fun j => start_tab_sizes.getD j 0
    ts := List.range start_tab_sizes.length }

/-- `_iter_tab_sizes` (lines 84–123) composed with the unboxing loop of
`iter_tab_sizes` (lines 162–174): run the pass (including the final
`append_tab_sizes(end_tab_sizes)`, line 121, which folds the end hints
into the still-live boxes), then dereference every recorded row in the
final store. -/
def iter_tab_sizes (lines : List (List α)) (tab_stops : TabStops) (size_func : α → Nat)
    (start_tab_sizes end_tab_sizes : List Int) : List (List Int) :=
  let p := batchLines tab_stops size_func (batchInit start_tab_sizes) lines
  let st2 := appendTabSizes p.1 0 end_tab_sizes
  p.2.map (fun ids => ids.map st2.val)

/-! ## Python list and `heapq` semantics

`TextBlock` relies on Python list indexing (negative indices count from
the end, out-of-range integer indices raise `IndexError`), slice
assignment (indices are clamped, never raising), `list.remove` (first
occurrence, `ValueError` when absent), and `heapq.heappush` (append then
sift the new item up).  These are embedded below exactly as CPython 2
implements them. -/

/-- Python `l[i]` for an `int` index `i`: negative indices are offset by
the length; `none` models the `IndexError` on out-of-range indices. -/
def pyGetInt (l : List β) (i : Int) : Option β :=
  if 0 ≤ i then l[i.toNat]?
  else if 0 ≤ i + l.length then l[(i + l.length).toNat]?
  else none

/-- Python `l[i] = x` for an `int` index (used only where the
corresponding read succeeded, so the out-of-range case cannot arise). -/
def pySetInt (l : List β) (i : Int) (x : β) : List β :=
  if 0 ≤ i then l.set i.toNat x else l.set (i + l.length).toNat x

/-- Python slice-endpoint resolution for a list of length `n` (as in
`slice.indices`): negative endpoints are offset by `n`, then clamped into
`[0, n]`. -/
def pySliceIdx (n : Nat) (i : Int) : Nat :=
  if i < 0 then (max 0 (i + n)).toNat else min i.toNat n

/-- Python `l[a:b]` (slice read; never raises). -/
def pyGetSlice (l : List β) (a b : Int) : List β :=
  ((l.drop (pySliceIdx l.length a)).take (pySliceIdx l.length b - pySliceIdx l.length a))

/-- Python `l[a:]` (slice read to the end). -/
def pyGetSliceFrom (l : List β) (a : Int) : List β :=
  l.drop (pySliceIdx l.length a)

/-- Python `l[a:b] = new` (slice assignment; indices clamped, and an
inverted range `b < a` deletes nothing, inserting at `a`). -/
def pySetSlice (l : List β) (a b : Int) (new : List β) : List β :=
  l.take (pySliceIdx l.length a) ++ new ++
    l.drop (max (pySliceIdx l.length a) (pySliceIdx l.length b))

/-- Python 2 `xrange(a, b)` over `int`s. -/
def xrange (a b : Int) : List Int :=
  (List.range (b - a).toNat).map (fun k => a + (k : Int))

/-- Python `l.remove(v)`: delete the first occurrence of `v`; `none`
models the `ValueError` when `v` is absent. -/
def listRemove (l : List Int) (v : Int) : Option (List Int) :=
  match l with
  | [] => none
  | x :: xs => if x = v then some xs else (listRemove xs v).map (fun r => x :: r)

/-- The loop of `heapq._siftdown(heap, 0, pos)`: move `newitem` up from
`pos` toward the root, shifting each greater parent down, and finally
store `newitem` at the stopping position.  The `fuel` argument makes the
recursion structural; the wrapper passes `fuel = pos`, which is enough
because the position strictly decreases on every iteration. -/
def siftdownAux (newitem : Int) : Nat → List Int → Nat → List Int
  | _, arr, 0 => arr.set 0 newitem
  | 0, arr, pos + 1 => arr.set (pos + 1) newitem
  | fuel + 1, arr, pos + 1 =>
    let parentpos := pos / 2
    let parent := arr.getD parentpos 0
    if newitem < parent then
      siftdownAux newitem fuel (arr.set (pos + 1) parent) parentpos
    else arr.set (pos + 1) newitem

/-- `heapq.heappush(heap, item)`: append `item`, then sift it up from the
last position. -/
def heappush (heap : List Int) (item : Int) : List Int :=
  siftdownAux item heap.length (heap ++ [item]) heap.length

/-! ## `TextBlock` (lines 176–314)

A `TextBlock` owns the line list `_lines` and, per line, a list
`_tab_sizes[i]` of references to shared `heapq` min-heaps of *negated*
tab sizes (one heap per column of the line's run).  Heap objects are
embedded as ids into the store `heaps`; `_tab_sizes` holds ids. -/

/-- The state of a `TextBlock` object.  `tab_stops` and `size_func` are
fixed at construction (lines 178–179). -/
structure TextBlock (α : Type) where
  tab_stops : TabStops
  size_func : α → Nat
  lines : List (List α)
  tabSizes : List (List Nat)
  heaps : Nat → List Int
  nextId : Nat

/-- The exception sites of `TextBlock._splice`.  The `removal*`
constructors are the raises inside the initial removal loop (lines
255–261); the others happen after the line lists have been spliced. -/
inductive SpliceErr where
  /-- `IndexError` from `self._tab_sizes[line_no]` (line 256). -/
  | removalIndexTabSizes
  /-- `IndexError` from `self._lines[line_no]` or `[col]` (line 261). -/
  | removalIndexLines
  /-- `ValueError` from `ts[col].remove(...)` (line 259). -/
  | removalValueError
  /-- `IndexError` from `self._tab_sizes[start - 1]` (line 267). -/
  | predIndex
  /-- `IndexError` from `self._tab_sizes[start + i]` (line 273). -/
  | newLineIndex
  /-- `IndexError` in the reconciliation loop (lines 292, 310, 312). -/
  | reconIndex
  /-- `ValueError` from `.remove(...)` in reconciliation (line 311). -/
  | reconValueError
deriving Repr, DecidableEq

/-- Overwrite one heap in the store. -/
def setHeap (heaps : Nat → List Int) (id : Nat) (h : List Int) : Nat → List Int :=
  fun j => if j = id then h else heaps j

/-- `TabStops.get_tab_size ∘ size_func` negated, the value stored in the
heaps (`-self.tab_stops.get_tab_size(self.size_func(cell))`). -/
def negWidth (t : TabStops) (f : α → Nat) (cell : α) : Int :=
  -(t.get_tab_size (f cell) : Int)

/-- The inner loop of the removal phase (lines 258–261): for each
`col` of the removed line's reference list, remove the line's negated
width from the referenced heap.  Python evaluates `self._lines[line_no]`
and `[col]` (possible `IndexError`s) before calling `remove` (possible
`ValueError`). -/
def spliceRemoveCols (t : TabStops) (f : α → Nat) (lines : List (List α))
    (line_no : Int) (ts : List Nat) (heaps : Nat → List Int) :
    List Nat → (Nat → List Int) × Option SpliceErr
  | [] => (heaps, none)
  | col :: rest =>
    match pyGetInt lines line_no with
    | none => (heaps, some .removalIndexLines)
    | some ln =>
      match ln[col]? with
      | none => (heaps, some .removalIndexLines)
      | some cell =>
        let id := ts.getD col 0
        match listRemove (heaps id) (negWidth t f cell) with
        | none => (heaps, some .removalValueError)
        | some h' => spliceRemoveCols t f lines line_no ts (setHeap heaps id h') rest

/-- The removal loop of `_splice` (lines 255–261): for each `line_no` in
`xrange(start, end)`, look up its reference list and remove every column
contribution.  Only the heap store is mutated; an error aborts the loop
with the store mutated so far. -/
def spliceRemoveLoop (t : TabStops) (f : α → Nat) (lines : List (List α))
    (tabSizes : List (List Nat)) (heaps : Nat → List Int) :
    List Int → (Nat → List Int) × Option SpliceErr
  | [] => (heaps, none)
  | line_no :: rest =>
    match pyGetInt tabSizes line_no with
    | none => (heaps, some .removalIndexTabSizes)
    | some ts =>
      match spliceRemoveCols t f lines line_no ts heaps (List.range ts.length) with
      | (heaps', none) => spliceRemoveLoop t f lines tabSizes heaps' rest
      | (heaps', some e) => (heaps', some e)

/-- Accumulator of the forward loop for the freshly inserted lines
(lines 266–286): the heap store with its allocator, the reference list
`ts` of the line being built, and the local variable `tab_sizes`
(`carried` here) seeded from the predecessor line. -/
structure NewAcc where
  heaps : Nat → List Int
  nextId : Nat
  ts : List Nat
  carried : List Nat

/-- The inner column loop for a new line (lines 275–284), over the
line's width list (whose length is `len(line) - 1`), starting at column
`col`.  A column inside the carried list reuses its heap: append the
reference to `ts` and push this line's negated width.  A column beyond it
allocates a fresh one-element heap (`_heap_box`) and replaces the carried
list with a copy of `ts` (`tab_sizes = list(ts)`; the source's
`assert col == len(tab_sizes)` always holds because `col` counts up by
one while the carried list only grows to exactly `col + 1`). -/
def spliceNewCols (acc : NewAcc) (col : Nat) : List Int → NewAcc
  | [] => acc
  | w :: ws =>
    if col < acc.carried.length then
      let id := acc.carried.getD col 0
      spliceNewCols { acc with
        ts := acc.ts ++ [id]
        heaps := setHeap acc.heaps id (heappush (acc.heaps id) (-w)) } (col + 1) ws
    else
      let id := acc.nextId
      let ts' := acc.ts ++ [id]
      spliceNewCols
        { heaps := setHeap acc.heaps id [-w], nextId := id + 1
          ts := ts', carried := ts' } (col + 1) ws

/-- The forward loop over the inserted lines (lines 272–286): read the
reference list at `start + i` (Python raises `IndexError` when that
integer index is out of range), run the column loop on it, truncate the
carried list to the line's column count
(`del tab_sizes[max(0, len(line) - 1):]`), and write the built reference
list back.  Returns `(tabSizes, heaps, nextId, carried)`. -/
def spliceNewLoop (t : TabStops) (f : α → Nat) (start : Int) :
    List (List α) → Nat → List (List Nat) → (Nat → List Int) → Nat → List Nat →
    (List (List Nat) × (Nat → List Int) × Nat × List Nat) × Option SpliceErr
  | [], _, tabSizes, heaps, nextId, carried => ((tabSizes, heaps, nextId, carried), none)
  | ln :: rest, i, tabSizes, heaps, nextId, carried =>
    match pyGetInt tabSizes (start + (i : Int)) with
    | none => ((tabSizes, heaps, nextId, carried), some .newLineIndex)
    | some ts0 =>
      let ws := lineWidths t f ln
      let acc := spliceNewCols ⟨heaps, nextId, ts0, carried⟩ 0 ws
      let carried' := acc.carried.take ws.length
      let tabSizes' := pySetInt tabSizes (start + (i : Int)) acc.ts
      spliceNewLoop t f start rest (i + 1) tabSizes' acc.heaps acc.nextId carried'

/-- The inner column loop of the reconciliation walk (lines 304–313),
over the first `num_columns` widths of a following line.  A column beyond
`new_tab_sizes` first gets a fresh one-element heap appended; then, when
the line's existing reference differs from the carried one, the line's
contribution is removed from its old heap (`ValueError` when absent), the
reference is repointed, and the width pushed into the carried heap (for a
freshly appended heap this adds the same width a second time — the source
really does store that line's contribution twice in that case). -/
def spliceReconCols (start_plus : Int) (i : Nat) :
    List Int → Nat → List Nat → List (List Nat) → (Nat → List Int) → Nat →
    (List Nat × List (List Nat) × (Nat → List Int) × Nat) × Option SpliceErr
  | [], _, newTS, tabSizes, heaps, nextId => ((newTS, tabSizes, heaps, nextId), none)
  | w :: ws, col, newTS, tabSizes, heaps, nextId =>
    let newTS' := if col < newTS.length then newTS else newTS ++ [nextId]
    let heaps' := if col < newTS.length then heaps else setHeap heaps nextId [-w]
    let nextId' := if col < newTS.length then nextId else nextId + 1
    match pyGetInt tabSizes (start_plus + (i : Int)) with
    | none => ((newTS', tabSizes, heaps', nextId'), some .reconIndex)
    | some tsLine =>
      match tsLine[col]? with
      | none => ((newTS', tabSizes, heaps', nextId'), some .reconIndex)
      | some oldId =>
        let newId := newTS'.getD col 0
        if oldId ≠ newId then
          match listRemove (heaps' oldId) (-w) with
          | none => ((newTS', tabSizes, heaps', nextId'), some .reconValueError)
          | some h' =>
            let heaps2 := setHeap heaps' oldId h'
            let tabSizes' := pySetInt tabSizes (start_plus + (i : Int)) (tsLine.set col newId)
            let heaps3 := setHeap heaps2 newId (heappush (heaps2 newId) (-w))
            spliceReconCols start_plus i ws (col + 1) newTS' tabSizes' heaps3 nextId'
        else
          spliceReconCols start_plus i ws (col + 1) newTS' tabSizes heaps' nextId'

/-- The reconciliation walk over the lines following the inserted range
(lines 288–313): shrink the shared window `num_columns` to each line's
column count, stop when it becomes zero, and re-point the line's
references to the carried heaps.  `num_columns` is kept as an `Int`
because Python's `len(line) - 1` is `-1` for an empty line, which does
*not* equal `0` and hence does not stop the walk (its inner `xrange` is
simply empty) — the embedding reproduces this. -/
def spliceReconLoop (t : TabStops) (f : α → Nat) (start_plus : Int) :
    List (List α) → Nat → Int → List Nat → List (List Nat) → (Nat → List Int) → Nat →
    (List Nat × List (List Nat) × (Nat → List Int) × Nat) × Option SpliceErr
  | [], _, _, newTS, tabSizes, heaps, nextId => ((newTS, tabSizes, heaps, nextId), none)
  | ln :: rest, i, numCols, newTS, tabSizes, heaps, nextId =>
    let numCols' := min numCols ((ln.length : Int) - 1)
    if numCols' = 0 then ((newTS, tabSizes, heaps, nextId), none)
    else
      let ws := (lineWidths t f ln).take numCols'.toNat
      match spliceReconCols start_plus i ws 0 newTS tabSizes heaps nextId with
      | (r, some e) => (r, some e)
      | ((newTS', tabSizes', heaps', nextId'), none) =>
        spliceReconLoop t f start_plus rest (i + 1) numCols' newTS' tabSizes' heaps' nextId'

/-- Everything `TextBlock._splice` does after the removal loop has
succeeded with the mutated heap store `heaps1` (lines 263–313): splice
the two line lists, seed the carried `tab_sizes` from the predecessor
line (line 266–269), run the forward loop over the inserted lines, and
reconcile the following lines. -/
def spliceAfterRemove (b : TextBlock α) (start end_ : Int) (newLines : List (List α))
    (heaps1 : Nat → List Int) : TextBlock α × Option SpliceErr :=
    let lines' := pySetSlice b.lines start end_ newLines
    let tabSizes1 := pySetSlice b.tabSizes start end_ (newLines.map (fun _ => []))
    let carried0? : Option (List Nat) :=
      if 0 < start then pyGetInt tabSizes1 (start - 1) else some []
    match carried0? with
    | none =>
      ({ b with lines := lines', tabSizes := tabSizes1, heaps := heaps1 }, some .predIndex)
    | some carried0 =>
      let newRange := pyGetSlice lines' start (start + (newLines.length : Int))
      match spliceNewLoop b.tab_stops b.size_func start newRange 0 tabSizes1 heaps1 b.nextId carried0 with
      | ((tabSizes2, heaps2, nextId2, _), some e) =>
        ({ b with lines := lines', tabSizes := tabSizes2, heaps := heaps2, nextId := nextId2 },
         some e)
      | ((tabSizes2, heaps2, nextId2, carried2), none) =>
        let b2 : TextBlock α :=
          { b with lines := lines', tabSizes := tabSizes2, heaps := heaps2, nextId := nextId2 }
        let start_plus := start + (newLines.length : Int)
        if start_plus < (lines'.length : Int) then
          match pyGetInt lines' start_plus with
          | none => (b2, some .reconIndex)
          | some firstFollow =>
            let numCols0 := (firstFollow.length : Int) - 1
            let followLines := pyGetSliceFrom lines' start_plus
            match spliceReconLoop b.tab_stops b.size_func start_plus followLines 0 numCols0
                carried2 tabSizes2 heaps2 nextId2 with
            | ((_, tabSizes3, heaps3, nextId3), e?) =>
              ({ b2 with tabSizes := tabSizes3, heaps := heaps3, nextId := nextId3 }, e?)
        else
          (b2, none)

/-- The body of `TextBlock._splice` after the index resolution of lines
251–252 (everything from line 254 on), on the already-resolved `start`
and `end`.  Returns the resulting state together with `some` exception
when one of the Python operations raised; the returned state then
carries every mutation performed before the raise, exactly like the
surviving Python object. -/
def spliceResolved (b : TextBlock α) (start end_ : Int) (newLines : List (List α)) :
    TextBlock α × Option SpliceErr :=
  match spliceRemoveLoop b.tab_stops b.size_func b.lines b.tabSizes b.heaps
      (xrange start end_) with
  | (heaps1, some e) => ({ b with heaps := heaps1 }, some e)
  | (heaps1, none) => spliceAfterRemove b start end_ newLines heaps1

/-- `TextBlock._splice` (lines 250–313): resolve negative `start`/`end`
relative to the current length (lines 251–252, applied once, without
re-checking), then run the body. -/
def TextBlock._splice (b : TextBlock α) (start0 end0 : Int) (newLines : List (List α)) :
    TextBlock α × Option SpliceErr :=
  spliceResolved b (if start0 < 0 then start0 + (b.lines.length : Int) else start0)
    (if end0 < 0 then end0 + (b.lines.length : Int) else end0) newLines

/-- `TextBlock.__init__` (lines 177–182): start from the empty state and
splice the initial lines in at `[0, 0)`. -/
def TextBlock.init (tab_stops : TabStops) (size_func : α → Nat) (lines : List (List α)) :
    TextBlock α × Option SpliceErr :=
  TextBlock._splice ⟨tab_stops, size_func, [], [], fun _ => [], 0⟩ 0 0 lines

/-- `TextBlock.append` (lines 200–202). -/
def TextBlock.append (b : TextBlock α) (ln : List α) : TextBlock α × Option SpliceErr :=
  b._splice b.lines.length b.lines.length [ln]

/-- `TextBlock.insert` (lines 214–215). -/
def TextBlock.insert (b : TextBlock α) (index : Int) (value : List α) :
    TextBlock α × Option SpliceErr :=
  b._splice index index [value]

/-- `TextBlock.iter_tab_sizes` (lines 232–238): slice the reference
lists and report `-x[0]` (the negated heap root) for each reference.
Python's `x[0]` raises `IndexError` on an empty heap; the embedding
returns `-0` there (`headD`), and every state a theorem below reads has
nonempty heaps only. -/
def TextBlock.iter_tab_sizes (b : TextBlock α) (start fin : Int) : List (List Int) :=
  (pyGetSlice b.tabSizes start fin).map (fun ts => ts.map (fun id => -((b.heaps id).headD 0)))

/-- `TextBlock.iter_tab_sizes` with the default range (`start=0`,
`end=None`, which Python resolves to `len(self._lines)`). -/
def TextBlock.iter_tab_sizes_all (b : TextBlock α) : List (List Int) :=
  b.iter_tab_sizes 0 b.lines.length

/-! ## The run structure of a `TextBlock` state (spec invariants I1–I3)

Per invariant I3 of the spec, the run of `(line, c)` is the set of lines
referencing the same heap object at column `c`; per I1–I2 the reported
width must be the maximum policy width over exactly those lines. -/

/-- The lines of `b` whose reference at column `c` is the heap `id`
(the run sharing that heap, per I3). -/
def runLinesSharing (b : TextBlock α) (c : Nat) (id : Nat) : List Nat :=
  (List.range b.lines.length).filter (fun j => ((b.tabSizes.getD j [])[c]?) = some id)

/-- The true width of position `(i, c)` per invariants I1–I2: the
maximum of `get_tab_size (size_func cell)` over exactly the lines
currently sharing the heap referenced at `(i, c)` (`none` when `(i, c)`
references no heap). -/
def trueRunMax (b : TextBlock α) (i c : Nat) : Option Int :=
  match ((b.tabSizes.getD i [])[c]?) with
  | none => none
  | some id =>
    some (((runLinesSharing b c id).map (fun j =>
      match (b.lines.getD j [])[c]? with
      | some cell => (b.tab_stops.get_tab_size (b.size_func cell) : Int)
      | none => 0)).foldr max 0)

/-! ## Heap correctness notions and append characterization

Used to relate the incremental `TextBlock` (heaps of negated widths) to
the batch algorithm (boxes holding running maxima). -/

/-- The `heapq` min-heap invariant on the array representation: every
element is at least its parent. -/
def IsHeap (h : List Int) : Prop :=
  ∀ i : Nat, 0 < i → i < h.length → h.getD ((i - 1) / 2) 0 ≤ h.getD i 0

/-- The simulation relation between the batch algorithm's box store and
the `TextBlock`'s heap store: every allocated id holds a valid nonempty
min-heap whose root is the negated box value. -/
def HeapRel (val : Nat → Int) (H : Nat → List Int) (nextId : Nat) : Prop :=
  ∀ id, id < nextId → IsHeap (H id) ∧ H id ≠ [] ∧ (H id).getD 0 0 = -(val id)

/-- The `TextBlock` built by starting from the empty block and appending
one line at a time (`edit(length, length, [line])`), as in claim C3. -/
def appendAll (t : TabStops) (f : α → Nat) (lines : List (List α)) : TextBlock α :=
  lines.foldl (fun b ln => (b.append ln).1) (TextBlock.init t f []).1

/-- What `TextBlock.append` computes on a well-formed block (proved in
`append_eq_appendPure` below): seed the carried list from the last line,
run the forward column loop on the new line, and extend both line
lists. -/
def appendPure (b : TextBlock α) (ln : List α) : TextBlock α :=
  let ws := lineWidths b.tab_stops b.size_func ln
  let acc := spliceNewCols ⟨b.heaps, b.nextId, [], b.tabSizes.getLastD []⟩ 0 ws
  { b with lines := b.lines ++ [ln], tabSizes := b.tabSizes ++ [acc.ts],
           heaps := acc.heaps, nextId := acc.nextId }

/-! ## Runs of the batch algorithm (claim C7)

The spec's notion of a *run* for column `c`: a maximal contiguous span
of lines each having more than `c` columns.  `runFinalMax` is the
maximum the spec says every line of the run must report at `c`: all the
run's policy widths at `c`, plus the start hint when the run begins at
line 0 and the end hint when it ends at the last line. -/

/-- Column count of a line: number of cells minus one (the last cell is
ignored; an empty line has column count 0). -/
def colcount (ln : List α) : Nat := ln.length - 1

/-- `sameRun lines c i j`: `i` and `j` are valid line indices lying in
the same run of column `c` — every line between them (inclusive) has
column count greater than `c`. -/
def sameRun (lines : List (List α)) (c i j : Nat) : Prop :=
  i < lines.length ∧ j < lines.length ∧
  ∀ k ∈ List.range (max i j + 1), min i j ≤ k → c < colcount (lines.getD k [])

instance (lines : List (List α)) (c i j : Nat) : Decidable (sameRun lines c i j) := by
  unfold sameRun
  exact instDecidableAnd

/-- The first line of the run of column `c` containing line `i`:
walk upward while the predecessor still has column count above `c`. -/
def runStart (lines : List (List α)) (c : Nat) : Nat → Nat
  | 0 => 0
  | i + 1 => if c < colcount (lines.getD i []) then runStart lines c i else i + 1

/-- Length of the maximal prefix of `rest` whose lines all have column
count above `c`. -/
def chainLen (c : Nat) : List (List α) → Nat
  | [] => 0
  | ln :: rest => if c < colcount ln then chainLen c rest + 1 else 0

/-- The policy width of line `ln` at column `c` (meaningful when
`c < colcount ln`). -/
def colWidth (t : TabStops) (f : α → Nat) (ln : List α) (c : Nat) : Int :=
  (lineWidths t f ln).getD c 0

/-- The spec's final maximum for the run of `(i, c)`: all policy widths
contributed by the run's lines, together with `start_tab_sizes[c]` when
the run starts at line 0 (and `c` is within the start hints) and
`end_tab_sizes[c]` when the run reaches the last line (and `c` is within
the end hints).  The fold is seeded with line `i`'s own contribution,
which is one of the run's contributions, so the result is the maximum of
the listed values. -/
def runFinalMax (lines : List (List α)) (t : TabStops) (f : α → Nat)
    (sh eh : List Int) (c i : Nat) : Int :=
  let a := runStart lines c i
  let len := chainLen c (lines.drop a)
  let contribs := ((lines.drop a).take len).map (fun ln => colWidth t f ln c)
  let withStart := if a = 0 ∧ c < sh.length then sh.getD c 0 :: contribs else contribs
  let withEnd := if a + len = lines.length ∧ c < eh.length
    then withStart ++ [eh.getD c 0] else withStart
  withEnd.foldl max (colWidth t f (lines.getD i []) c)

/-- The value the machine's still-live box for column `c` reaches after
the remaining lines `rest` and the end hints are folded in, starting
from the current value `v`: each line of the continuing run maxes in its
width; the first line with column count at most `c` freezes the box; a
box alive after the last line also absorbs the end hint. -/
def futureVal (t : TabStops) (f : α → Nat) (c : Nat) (eh : List Int) :
    List (List α) → Int → Int
  | [], v => if c < eh.length then max v (eh.getD c 0) else v
  | ln :: rest, v =>
    if c < colcount ln then futureVal t f c eh rest (max v (colWidth t f ln c)) else v

/-! ## A store-passing rendering of the batch run (claim C10)

To state that `iter_tab_sizes` never mutates the caller's
`start_tab_sizes`/`end_tab_sizes` list objects (so the mutable default
`[]` arguments accumulate no state), the caller's lists are placed in an
explicit object store and the function receives *references*.  Every
list allocation (`box`) and in-place write (`update_list_max`) the
source performs goes through the store; the hint lists are read through
their references at the same program points as in the source (the
start list in the opening comprehension, line 93; the end list at the
final `append_tab_sizes(end_tab_sizes)`, line 121).  Python object
identity is modelled by reference freshness: a pre-existing object has
a reference below the allocation counter, so a fresh allocation never
writes over it. -/

/-- A heap of Python list objects: an allocation counter and the
contents of each list, by reference. -/
structure Store where
  next : Nat
  lists : Nat → List Int

/-- `box(value)` (line 166–167): allocate the fresh one-element list
`[value]` and return its reference. -/
def Store.box (σ : Store) (v : Int) : Store × Nat :=
  ({ next := σ.next + 1
     lists := fun j => if j = σ.next then [v] else σ.lists j }, σ.next)

/-- `update_list_max(u, value)` (lines 169–170): `u[0] = max(u[0], value)`
— an in-place write to the list object `u` refers to. -/
def Store.update_list_max (σ : Store) (u : Nat) (v : Int) : Store :=
  { σ with lists := fun j =>
      if j = u then (σ.lists u).set 0 (max ((σ.lists u).getD 0 0) v) else σ.lists j }

/-- The comprehension `[size_type(x) for x in start_tab_sizes]`
(line 93): one fresh box per hint element, in order. -/
def boxAll (σ : Store) : List Int → Store × List Nat
  | [] => (σ, [])
  | v :: vs =>
    let p := σ.box v
    let q := boxAll p.1 vs
    (q.1, p.2 :: q.2)

/-- `append_tab_sizes` (lines 95–108) with the boxes
(`tab_sizes` entries) living in the store. -/
def storeAppendTabSizes (σ : Store) (ts : List Nat) (col : Nat) :
    List Int → Store × List Nat
  | [] => (σ, ts)
  | w :: ws =>
    if h : col < ts.length then
      storeAppendTabSizes (σ.update_list_max (ts.get ⟨col, h⟩) w) ts (col + 1) ws
    else
      let p := σ.box w
      storeAppendTabSizes p.1 (ts ++ [p.2]) (col + 1) ws

/-- One main-loop iteration (lines 113–119) over the store: fold the
line's widths in, truncate, record the truncated reference list. -/
def storeLineStep (t : TabStops) (f : α → Nat) (σ : Store) (ts : List Nat)
    (ln : List α) : Store × List Nat × List Nat :=
  let ws := lineWidths t f ln
  let p := storeAppendTabSizes σ ts 0 ws
  let ts' := p.2.take ws.length
  (p.1, ts', ts')

/-- The main loop of `_iter_tab_sizes` over the store, collecting
`line_columns`. -/
def storeLines (t : TabStops) (f : α → Nat) :
    Store → List Nat → List (List α) → Store × List Nat × List (List Nat)
  | σ, ts, [] => (σ, ts, [])
  | σ, ts, ln :: rest =>
    let p := storeLineStep t f σ ts ln
    let q := storeLines t f p.1 p.2.1 rest
    (q.1, q.2.1, p.2.2 :: q.2.2)

/-- `iter_tab_sizes` (lines 125–174) against the store: `rs` and `re`
are the caller's references to `start_tab_sizes` and `end_tab_sizes`.
The start list is read in the opening comprehension, the end list at
the final `append_tab_sizes` call (through the store current at that
point), and the rows are unboxed (`[i[0] for i in tab_sizes]`) in the
final store.  Returns the final store next to the result. -/
def store_iter_tab_sizes (σ : Store) (lines : List (List α)) (t : TabStops)
    (f : α → Nat) (rs re : Nat) : Store × List (List Int) :=
  let p := boxAll σ (σ.lists rs)
  let q := storeLines t f p.1 p.2 lines
  let r := storeAppendTabSizes q.1 q.2.1 0 (q.1.lists re)
  (r.1, q.2.2.map (fun ids => ids.map (fun id => (r.1.lists id).getD 0 0)))

/-- The store simulates the machine: the box allocated `k`-th during the
call sits at reference `N + k` and holds exactly the machine's value. -/
def StoreRel (N : Nat) (σ : Store) (b : BatchSt) : Prop :=
  σ.next = N + b.nextId ∧ ∀ k, k < b.nextId → σ.lists (N + k) = [b.val k]

/-! ## Claims C8, C1, C2 -/

/-- C8: the `TextBlock` built from `[["it","is","a"],["small","world"]]`
with default `TabStops` and `size_func = len` reports `[[6,3],[6]]`, and
after inserting the empty line at index 1 (`edit(1, 1, [[]])`) reports
`[[3,3],[],[6]]` — the run splits and line 0's column-0 width drops from
6 to 3.  (This matches `test_iter_tab_sizes` and `test_insert_block` in
`elastictabstops_test.py`.) -/
theorem C8_insert_empty_line_splits_run :
    (TextBlock.init {} String.length [["it", "is", "a"], ["small", "world"]]).2 = none ∧
    (TextBlock.init {} String.length
      [["it", "is", "a"], ["small", "world"]]).1.iter_tab_sizes_all = [[6, 3], [6]] ∧
    ((TextBlock.init {} String.length
      [["it", "is", "a"], ["small", "world"]]).1.insert 1 []).2 = none ∧
    ((TextBlock.init {} String.length
      [["it", "is", "a"], ["small", "world"]]).1.insert 1 []).1.iter_tab_sizes_all =
      [[3, 3], [], [6]] := by
  refine ⟨rfl, rfl, rfl, rfl⟩

/-- C1: the claim — after every edit the width reported by
`iter_tab_sizes` equals the maximum policy width over exactly the lines
in the column's run (spec invariants I1–I2) — fails on the code.  For
the block built from cell sizes `[[2,9],[4,9],[5,9]]` (column-0 widths
3, 5, 6 sharing one heap `[-6,-3,-5]`), deleting the last line with
`edit(2, 3, [])` removes `-6` with Python's `list.remove`, which does not
re-heapify: the heap becomes `[-3,-5]` with the stale root `-3`, so both
remaining lines report width 3 while the true run maximum is
`max(3,5) = 5`.  The spec itself flags this unsound removal (§9), so the
claim reflects the intent and the code is wrong. -/
theorem C1_reported_width_diverges_from_run_max :
    ((TextBlock.init {} id [[2, 9], [4, 9], [5, 9]]).1._splice 2 3 []).2 = none ∧
    ((TextBlock.init {} id [[2, 9], [4, 9], [5, 9]]).1._splice 2 3
      []).1.iter_tab_sizes_all = [[3], [3]] ∧
    trueRunMax ((TextBlock.init {} id [[2, 9], [4, 9], [5, 9]]).1._splice 2 3 []).1 0 0 =
      some 5 ∧
    ((3 : Int) ≠ 5) := by
  refine ⟨rfl, rfl, ?_, by decide⟩
  decide

/-- C2: the claim — deleting a line and immediately re-inserting the
identical line at the same position restores the whole document's width
sequence — fails on the code.  Start from the reachable state of the C1
scenario (widths `[[3],[3]]`, heap `[-3,-5]` with a stale root): deleting
line 1 (`edit(1, 2, [])`) and re-inserting the identical line
(`edit(1, 1, [[4,9]])`) rebuilds the heap as `[-5,-3]`, whose root is now
correct, so the widths become `[[5],[5]] ≠ [[3],[3]]`.  The root cause is
the same unsound `list.remove` on a heap that the spec flags in §9, so
this too is a code bug rather than a spec error. -/
theorem C2_delete_reinsert_changes_widths :
    (((TextBlock.init {} id [[2, 9], [4, 9], [5, 9]]).1._splice 2 3
      []).1.iter_tab_sizes_all = [[3], [3]]) ∧
    ((((TextBlock.init {} id [[2, 9], [4, 9], [5, 9]]).1._splice 2 3 []).1._splice 1 2
      []).2 = none) ∧
    (((((TextBlock.init {} id [[2, 9], [4, 9], [5, 9]]).1._splice 2 3 []).1._splice 1 2
      []).1._splice 1 1 [[4, 9]]).2 = none) ∧
    (((((TextBlock.init {} id [[2, 9], [4, 9], [5, 9]]).1._splice 2 3 []).1._splice 1 2
      []).1._splice 1 1 [[4, 9]]).1.iter_tab_sizes_all = [[5], [5]]) ∧
    ([[5], [5]] ≠ ([[3], [3]] : List (List Int))) := by
  refine ⟨rfl, rfl, rfl, rfl, by decide⟩

/-! ## Claims C4 and C9 -/

/-- C4: the claim says `TabStops.get_tab_size(size)` returns
`margin + max(ceil(size / step_size) * step_size, min_size)` with the true
mathematical ceiling of the exact quotient.  The code (a Python 2
program, hence floor division on ints, after which `math.ceil` is a
no-op) disagrees at `margin=1, min_size=1, step_size=2, size=5`: it
returns `1 + max(2*2, 1) = 5`, while the claimed ceiling formula gives
`1 + max(3*2, 1) = 7`.  This contradicts the function's own docstring
("NB: We round up here"), so the code, not the claim, is wrong. -/
theorem C4_get_tab_size_not_ceiling :
    TabStops.get_tab_size ⟨1, 1, 2⟩ 5 = 5 ∧
    TabStops.get_tab_size_spec ⟨1, 1, 2⟩ 5 = 7 ∧
    TabStops.get_tab_size ⟨1, 1, 2⟩ 5 ≠ TabStops.get_tab_size_spec ⟨1, 1, 2⟩ 5 := by
  refine ⟨rfl, rfl, ?_⟩
  decide

/-- C9: for every configuration with `step_size > 0`, `get_tab_size` is
non-decreasing in the size, and always at least `margin`. -/
theorem C9_get_tab_size_monotone_ge_margin (t : TabStops)
    (hstep : 0 < t.step_size) (s1 s2 : Nat) (h : s1 ≤ s2) :
    TabStops.get_tab_size t s1 ≤ TabStops.get_tab_size t s2 ∧
    t.margin ≤ TabStops.get_tab_size t s1 := by
  constructor
  · unfold TabStops.get_tab_size
    have hdiv : s1 / t.step_size * t.step_size ≤ s2 / t.step_size * t.step_size :=
      Nat.mul_le_mul_right _ (Nat.div_le_div_right h)
    exact Nat.add_le_add_left (max_le_max hdiv (le_refl _)) _
  · exact Nat.le_add_right _ _

/-- Witness for C9 at `t = ⟨2, 3, 4⟩`, `s1 = 5`, `s2 = 9`. -/
theorem C9_get_tab_size_monotone_ge_margin_witness :
    TabStops.get_tab_size ⟨2, 3, 4⟩ 5 ≤ TabStops.get_tab_size ⟨2, 3, 4⟩ 9 ∧
    (2 : Nat) ≤ TabStops.get_tab_size ⟨2, 3, 4⟩ 5 :=
  C9_get_tab_size_monotone_ge_margin ⟨2, 3, 4⟩ (by decide) 5 9 (by decide)

/-! ## Claim C5: `_splice` performs no index validation -/

theorem xrange_of_le {a b : Int} (h : b ≤ a) : xrange a b = [] := by
  unfold xrange
  rw [Int.toNat_of_nonpos (by omega)]
  rfl

theorem pySetSlice_of_le {a b : Int} (h0 : 0 ≤ b) (h : b ≤ a) (l new : List β) :
    pySetSlice l a b new = pySetSlice l a a new := by
  unfold pySetSlice
  have ha : ¬ a < 0 := by omega
  have hb : ¬ b < 0 := by omega
  have hmono : pySliceIdx l.length b ≤ pySliceIdx l.length a := by
    unfold pySliceIdx
    rw [if_neg ha, if_neg hb]
    exact min_le_min (Int.toNat_le_toNat h) (le_refl _)
  rw [max_eq_left hmono, max_self]

/-- C5, counterexample to the claim as stated: on the freshly
constructed two-line block, the call `edit(2, 1, [])` — resolved
`start = 2 > end = 1`, both within `[0, length]` — does *not* raise
`IndexError` (the claim says it must); it returns normally and leaves the
block unchanged. -/
theorem C5_counterexample_start_gt_end_no_error :
    (((TextBlock.init {} String.length
        [["it", "is", "a"], ["small", "world"]]).1._splice 2 1 []).2 = none) ∧
    (((TextBlock.init {} String.length
        [["it", "is", "a"], ["small", "world"]]).1._splice 2 1 []).1.lines =
      [["it", "is", "a"], ["small", "world"]]) ∧
    (((TextBlock.init {} String.length
        [["it", "is", "a"], ["small", "world"]]).1._splice 2 1
        []).1.iter_tab_sizes_all = [[6, 3], [6]]) := by
  refine ⟨rfl, rfl, rfl⟩

/-- C5, amended: negative `start`/`end` are resolved relative to the
current length (first two conjuncts), but `_splice` performs no
validation afterwards: a resolved call with `start > end ≥ 0` raises
nothing on that account — it behaves exactly like the degenerate
insertion `edit(start, start, newLines)` (third conjunct; the removal
loop is empty and Python slice assignment clamps the inverted range). -/
theorem C5_splice_resolves_indices_and_skips_validation
    (b : TextBlock α) (s e : Int) (ls : List (List α)) :
    (s < 0 → 0 ≤ s + b.lines.length →
      b._splice s e ls = b._splice (s + b.lines.length) e ls) ∧
    (e < 0 → 0 ≤ e + b.lines.length →
      b._splice s e ls = b._splice s (e + b.lines.length) ls) ∧
    (0 ≤ e → e ≤ s → b._splice s e ls = b._splice s s ls) := by
  refine ⟨fun h1 h2 => ?_, fun h1 h2 => ?_, fun h1 h2 => ?_⟩
  · unfold TextBlock._splice
    rw [if_pos h1, if_neg (show ¬ s + (b.lines.length : Int) < 0 by omega)]
  · unfold TextBlock._splice
    rw [if_pos h1, if_neg (show ¬ e + (b.lines.length : Int) < 0 by omega)]
  · unfold TextBlock._splice
    rw [if_neg (by omega : ¬ s < 0), if_neg (by omega : ¬ e < 0)]
    unfold spliceResolved
    rw [xrange_of_le h2, xrange_of_le (le_refl s)]
    have hafter : ∀ (hp : Nat → List Int),
        spliceAfterRemove b s e ls hp = spliceAfterRemove b s s ls hp := by
      intro hp
      unfold spliceAfterRemove
      rw [pySetSlice_of_le h1 h2, pySetSlice_of_le h1 h2]
    simp only [hafter]

/-- Witness for C5 on the two-line block: a negative `start`, a negative
`end`, and an inverted range, each discharged concretely. -/
theorem C5_splice_resolves_indices_and_skips_validation_witness :
    ((TextBlock.init {} id [[2, 9], [4, 9]]).1._splice (-1) 2 [] =
      (TextBlock.init {} id [[2, 9], [4, 9]]).1._splice 1 2 []) ∧
    ((TextBlock.init {} id [[2, 9], [4, 9]]).1._splice 0 (-1) [] =
      (TextBlock.init {} id [[2, 9], [4, 9]]).1._splice 0 1 []) ∧
    ((TextBlock.init {} id [[2, 9], [4, 9]]).1._splice 2 1 [] =
      (TextBlock.init {} id [[2, 9], [4, 9]]).1._splice 2 2 []) :=
  ⟨((C5_splice_resolves_indices_and_skips_validation
      (TextBlock.init {} id [[2, 9], [4, 9]]).1 (-1) 2 []).1 (by decide) (by decide)),
   ((C5_splice_resolves_indices_and_skips_validation
      (TextBlock.init {} id [[2, 9], [4, 9]]).1 0 (-1) []).2.1 (by decide) (by decide)),
   ((C5_splice_resolves_indices_and_skips_validation
      (TextBlock.init {} id [[2, 9], [4, 9]]).1 2 1 []).2.2 (by decide) (by decide))⟩

/-! ## Claim C6: failed edits and partial state -/

theorem spliceNewLoop_err {t : TabStops} {f : α → Nat} {start : Int} :
    ∀ (rng : List (List α)) (i : Nat) (tabSizes : List (List Nat))
      (heaps : Nat → List Int) (nextId : Nat) (carried : List Nat) (err : SpliceErr),
      (spliceNewLoop t f start rng i tabSizes heaps nextId carried).2 = some err →
      err = SpliceErr.newLineIndex := by
  intro rng
  induction rng with
  | nil => intro i ts hp n c err h; simp [spliceNewLoop] at h
  | cons ln rest ih =>
    intro i ts hp n c err h
    unfold spliceNewLoop at h
    cases hg : pyGetInt ts (start + (i : Int)) with
    | none => rw [hg] at h; cases h; rfl
    | some ts0 => rw [hg] at h; exact ih _ _ _ _ _ _ h

theorem spliceReconCols_err {start_plus : Int} {i : Nat} :
    ∀ (ws : List Int) (col : Nat) (newTS : List Nat) (tabSizes : List (List Nat))
      (heaps : Nat → List Int) (nextId : Nat) (err : SpliceErr),
      (spliceReconCols start_plus i ws col newTS tabSizes heaps nextId).2 = some err →
      err = SpliceErr.reconIndex ∨ err = SpliceErr.reconValueError := by
  intro ws
  induction ws with
  | nil => intro col nts ts hp n err h; simp [spliceReconCols] at h
  | cons w rest ih =>
    intro col nts ts hp n err h
    unfold spliceReconCols at h
    cases hg : pyGetInt ts (start_plus + (i : Int)) with
    | none =>
      rw [hg] at h
      have h2 : some SpliceErr.reconIndex = some err := h
      exact Or.inl (Option.some.inj h2).symm
    | some tsLine =>
      rw [hg] at h
      dsimp only at h
      cases hc : tsLine[col]? with
      | none =>
        rw [hc] at h
        have h2 : some SpliceErr.reconIndex = some err := h
        exact Or.inl (Option.some.inj h2).symm
      | some oldId =>
        rw [hc] at h
        dsimp only at h
        by_cases hne : oldId ≠ (if col < nts.length then nts else nts ++ [n]).getD col 0
        · rw [if_pos hne] at h
          cases hr : listRemove
              ((if col < nts.length then hp else setHeap hp n [-w]) oldId) (-w) with
          | none =>
            rw [hr] at h
            have h2 : some SpliceErr.reconValueError = some err := h
            exact Or.inr (Option.some.inj h2).symm
          | some h' =>
            rw [hr] at h
            exact ih _ _ _ _ _ _ h
        · rw [if_neg hne] at h
          exact ih _ _ _ _ _ _ h

theorem spliceReconLoop_err {t : TabStops} {f : α → Nat} {start_plus : Int} :
    ∀ (followLines : List (List α)) (i : Nat) (numCols : Int) (newTS : List Nat)
      (tabSizes : List (List Nat)) (heaps : Nat → List Int) (nextId : Nat) (err : SpliceErr),
      (spliceReconLoop t f start_plus followLines i numCols newTS tabSizes heaps
        nextId).2 = some err →
      err = SpliceErr.reconIndex ∨ err = SpliceErr.reconValueError := by
  intro followLines
  induction followLines with
  | nil => intro i nc nts ts hp n err h; simp [spliceReconLoop] at h
  | cons ln rest ih =>
    intro i nc nts ts hp n err h
    unfold spliceReconLoop at h
    by_cases hz : min nc ((ln.length : Int) - 1) = 0
    · rw [if_pos hz] at h; cases h
    · rw [if_neg hz] at h
      dsimp only at h
      rcases hr : spliceReconCols start_plus i
          ((lineWidths t f ln).take (min nc ((ln.length : Int) - 1)).toNat) 0 nts ts hp n
        with ⟨⟨nts', ts', hp', n'⟩, o⟩
      rw [hr] at h
      cases o with
      | some e0 =>
        have h2 : some e0 = some err := h
        have h3 := spliceReconCols_err _ _ _ _ _ _ err (by rw [hr, ← Option.some.inj h2])
        exact h3
      | none =>
        exact ih _ _ _ _ _ _ _ h

theorem spliceAfterRemove_err (b : TextBlock α) (s e : Int) (ls : List (List α))
    (hp : Nat → List Int) (err : SpliceErr)
    (h : (spliceAfterRemove b s e ls hp).2 = some err) :
    err = SpliceErr.predIndex ∨ err = SpliceErr.newLineIndex ∨
    err = SpliceErr.reconIndex ∨ err = SpliceErr.reconValueError := by
  unfold spliceAfterRemove at h
  split at h <;> dsimp only at h
  case isTrue hs =>
    split at h
    case h_1 =>
      exact Or.inl (Option.some.inj h).symm
    case h_2 x0 carried0 heq0 =>
      rcases hnl : spliceNewLoop b.tab_stops b.size_func s
          (pyGetSlice (pySetSlice b.lines s e ls) s (s + (ls.length : Int))) 0
          (pySetSlice b.tabSizes s e (List.map (fun x => []) ls)) hp b.nextId carried0
        with ⟨⟨ts2, hp2, n2, c2⟩, o2⟩
      rw [hnl] at h
      cases o2 with
      | some e1 =>
        have he1 : e1 = SpliceErr.newLineIndex :=
          spliceNewLoop_err _ _ _ _ _ _ _ (by rw [hnl])
        have h2 : some e1 = some err := h
        exact Or.inr (Or.inl ((Option.some.inj h2) ▸ he1))
      | none =>
        dsimp only at h
        split at h
        · split at h
          case h_1 => exact Or.inr (Or.inr (Or.inl (Option.some.inj h).symm))
          case h_2 ff hff =>
            rcases spliceReconLoop_err _ _ _ _ _ _ _ _ h with h3 | h3
            · exact Or.inr (Or.inr (Or.inl h3))
            · exact Or.inr (Or.inr (Or.inr h3))
        · exact Option.noConfusion h
  case isFalse hs =>
    rcases hnl : spliceNewLoop b.tab_stops b.size_func s
        (pyGetSlice (pySetSlice b.lines s e ls) s (s + (ls.length : Int))) 0
        (pySetSlice b.tabSizes s e (List.map (fun x => []) ls)) hp b.nextId
        ([] : List Nat)
      with ⟨⟨ts2, hp2, n2, c2⟩, o2⟩
    rw [hnl] at h
    cases o2 with
    | some e1 =>
      have he1 : e1 = SpliceErr.newLineIndex :=
        spliceNewLoop_err _ _ _ _ _ _ _ (by rw [hnl])
      have h2 : some e1 = some err := h
      exact Or.inr (Or.inl ((Option.some.inj h2) ▸ he1))
    | none =>
      dsimp only at h
      split at h
      · split at h
        case h_1 => exact Or.inr (Or.inr (Or.inl (Option.some.inj h).symm))
        case h_2 ff hff =>
          rcases spliceReconLoop_err _ _ _ _ _ _ _ _ h with h3 | h3
          · exact Or.inr (Or.inr (Or.inl h3))
          · exact Or.inr (Or.inr (Or.inr h3))
      · exact Option.noConfusion h

/-- C6, amended: a failed `edit` may leave the block partially mutated
(see the counterexample below), but when the raise happens inside the
initial removal loop — before the line lists are spliced — the line
sequence and the per-line reference lists are unchanged; only shared
heap contents (and hence reported widths) may already have changed. -/
theorem C6_failed_removal_preserves_lines (b : TextBlock α) (s e : Int)
    (ls : List (List α))
    (h : (b._splice s e ls).2 = some SpliceErr.removalIndexTabSizes ∨
         (b._splice s e ls).2 = some SpliceErr.removalIndexLines ∨
         (b._splice s e ls).2 = some SpliceErr.removalValueError) :
    (b._splice s e ls).1.lines = b.lines ∧
    (b._splice s e ls).1.tabSizes = b.tabSizes := by
  unfold TextBlock._splice spliceResolved at *
  rcases hrem : spliceRemoveLoop b.tab_stops b.size_func b.lines b.tabSizes b.heaps
      (xrange (if s < 0 then s + (b.lines.length : Int) else s)
        (if e < 0 then e + (b.lines.length : Int) else e)) with ⟨heaps1, o⟩
  cases o with
  | some e0 => exact ⟨rfl, rfl⟩
  | none =>
    exfalso
    rcases h with h1 | h1 | h1 <;> rw [hrem] at h1 <;>
      rcases spliceAfterRemove_err _ _ _ _ _ _ h1 with h3 | h3 | h3 | h3 <;>
      exact absurd h3 (by decide)

/-- Witness for C6 on the two-line block via the failing edit
`edit(1, 5, [])`. -/
theorem C6_failed_removal_preserves_lines_witness :
    ((TextBlock.init {} id [[2, 9], [4, 9]]).1._splice 1 5 []).1.lines =
      (TextBlock.init {} id [[2, 9], [4, 9]]).1.lines ∧
    ((TextBlock.init {} id [[2, 9], [4, 9]]).1._splice 1 5 []).1.tabSizes =
      (TextBlock.init {} id [[2, 9], [4, 9]]).1.tabSizes :=
  C6_failed_removal_preserves_lines (TextBlock.init {} id [[2, 9], [4, 9]]).1 1 5 []
    (Or.inl (by rfl))

/-- C6, counterexample to the claim as stated: on the block with cell
sizes `[[2,9],[4,9]]` (both lines sharing the column-0 heap `[-5,-3]`,
reported widths `[[5],[5]]`), the failing edit `edit(1, 5, [])` raises
`IndexError` at `line_no = 2` *after* already removing line 1's
contribution from the shared heap: afterwards the block reports
`[[3],[3]]`, so the failed edit did observably mutate shared state. -/
theorem C6_counterexample_failed_edit_changes_widths :
    (((TextBlock.init {} id [[2, 9], [4, 9]]).1._splice 1 5 []).2 =
      some SpliceErr.removalIndexTabSizes) ∧
    (((TextBlock.init {} id [[2, 9], [4, 9]]).1._splice 1 5 []).1.lines =
      [[2, 9], [4, 9]]) ∧
    ((TextBlock.init {} id [[2, 9], [4, 9]]).1.iter_tab_sizes_all = [[5], [5]]) ∧
    (((TextBlock.init {} id [[2, 9], [4, 9]]).1._splice 1 5 []).1.iter_tab_sizes_all =
      [[3], [3]]) ∧
    ([[3], [3]] ≠ ([[5], [5]] : List (List Int))) :=
  ⟨rfl, rfl, rfl, rfl, by decide⟩

/-! ## Heap lemmas: `heappush` on a valid heap keeps it valid, adds the
item to the multiset, and sets the root to the new minimum -/

theorem getD_set_self (l : List Int) (i : Nat) (hi : i < l.length) (a : Int) :
    (l.set i a).getD i 0 = a := by
  rw [List.getD_eq_getElem?_getD, List.getElem?_set_self hi]
  rfl

theorem getD_set_ne (l : List Int) (i j : Nat) (hij : i ≠ j) (a : Int) :
    (l.set i a).getD j 0 = l.getD j 0 := by
  rw [List.getD_eq_getElem?_getD, List.getElem?_set_ne hij, ← List.getD_eq_getElem?_getD]

theorem IsHeap.root_le {h : List Int} (hh : IsHeap h) :
    ∀ i, i < h.length → h.getD 0 0 ≤ h.getD i 0 := by
  intro i
  induction i using Nat.strong_induction_on with
  | _ i ih =>
    intro hi
    rcases Nat.eq_zero_or_pos i with h0 | hpos
    · subst h0; exact le_refl _
    · exact le_trans (ih ((i - 1) / 2) (by omega) (by omega)) (hh i hpos hi)

theorem IsHeap.root_le_mem {h : List Int} (hh : IsHeap h) {v : Int} (hv : v ∈ h) :
    h.getD 0 0 ≤ v := by
  rcases List.mem_iff_getElem.mp hv with ⟨n, hn, rfl⟩
  rw [← List.getD_eq_getElem h 0 hn]
  exact hh.root_le n hn

theorem getD_zero_mem {h : List Int} (hne : h ≠ []) : h.getD 0 0 ∈ h := by
  cases h with
  | nil => exact absurd rfl hne
  | cons a t => exact List.mem_cons_self a t

theorem set_getD_set_perm (l : List Int) (i j : Nat) (hi : i < l.length)
    (hj : j < l.length) (hij : i ≠ j) (x : Int) :
    ((l.set i (l.getD j 0)).set j x).Perm (l.set i x) := by
  rw [List.perm_iff_count]
  intro v
  have hlen : j < (l.set i (l.getD j 0)).length := by simpa using hj
  have hcnt : l[i] = v → 1 ≤ List.count v l := fun he =>
    List.count_pos_iff.mpr (he ▸ List.getElem_mem hi)
  have hg : l.getD j 0 = l[j] := List.getD_eq_getElem l 0 hj
  rw [List.count_set _ _ _ _ hlen, List.count_set _ _ _ _ hi, List.count_set _ _ _ _ hi,
    List.getElem_set_ne hij]
  simp only [hg, beq_iff_eq]
  have hcnt' : (if l[i] = v then 1 else 0) ≤ List.count v l := by
    split_ifs with hh
    · exact hcnt hh
    · omega
  split_ifs at hcnt' ⊢ <;> omega

/-- Placing `x` at the hole `pos` yields a valid heap, provided the heap
property holds away from the hole, the hole's children are at least `x`,
and the hole's parent is at most `x`. -/
theorem isHeap_set_pos (arr : List Int) (x : Int) (pos : Nat) (hlen : pos < arr.length)
    (hB : ∀ i, 0 < i → i < arr.length → i ≠ pos →
      arr.getD ((i - 1) / 2) 0 ≤ arr.getD i 0)
    (hC : ∀ i, 0 < i → i < arr.length → (i - 1) / 2 = pos → x ≤ arr.getD i 0)
    (hpar : 0 < pos → arr.getD ((pos - 1) / 2) 0 ≤ x) :
    IsHeap (arr.set pos x) := by
  intro i hpos hilen
  rw [List.length_set] at hilen
  by_cases hip : i = pos
  · subst hip
    rw [getD_set_self _ _ (by omega) x, getD_set_ne _ _ _ (by omega) x]
    exact hpar hpos
  · rw [getD_set_ne _ _ _ (fun he => hip he.symm) x]
    by_cases hp : (i - 1) / 2 = pos
    · rw [hp, getD_set_self _ _ hlen x]
      exact hC i hpos hilen hp
    · rw [getD_set_ne _ _ _ (fun he => hp he.symm) x]
      exact hB i hpos hilen hip

theorem siftdownAux_spec (x : Int) :
    ∀ (fuel : Nat) (pos : Nat) (arr : List Int),
      pos ≤ fuel → pos < arr.length →
      (∀ i, 0 < i → i < arr.length → i ≠ pos →
        arr.getD ((i - 1) / 2) 0 ≤ arr.getD i 0) →
      (∀ i, 0 < i → i < arr.length → (i - 1) / 2 = pos → x ≤ arr.getD i 0) →
      (∀ i, 0 < i → i < arr.length → (i - 1) / 2 = pos →
        arr.getD ((pos - 1) / 2) 0 ≤ arr.getD i 0) →
      IsHeap (siftdownAux x fuel arr pos) ∧
      (siftdownAux x fuel arr pos).Perm (arr.set pos x) := by
  intro fuel
  induction fuel with
  | zero =>
    intro pos arr hfuel hlen hB hC _hG
    have hp0 : pos = 0 := by omega
    subst hp0
    exact ⟨isHeap_set_pos arr x 0 hlen hB hC (fun h => absurd h (lt_irrefl 0)),
      List.Perm.refl _⟩
  | succ fuel ih =>
    intro pos arr hfuel hlen hB hC hG
    cases pos with
    | zero =>
      exact ⟨isHeap_set_pos arr x 0 hlen hB hC (fun h => absurd h (lt_irrefl 0)),
        List.Perm.refl _⟩
    | succ p =>
      show IsHeap (siftdownAux x (fuel + 1) arr (p + 1)) ∧ _
      by_cases hlt : x < arr.getD (p / 2) 0
      · have harr' : siftdownAux x (fuel + 1) arr (p + 1) =
            siftdownAux x fuel (arr.set (p + 1) (arr.getD (p / 2) 0)) (p / 2) := by
          rw [siftdownAux, if_pos hlt]
        rw [harr']
        have hB' : ∀ i, 0 < i → i < (arr.set (p + 1) (arr.getD (p / 2) 0)).length →
            i ≠ p / 2 → (arr.set (p + 1) (arr.getD (p / 2) 0)).getD ((i - 1) / 2) 0 ≤
              (arr.set (p + 1) (arr.getD (p / 2) 0)).getD i 0 := by
          intro i h1 h2 h3
          rw [List.length_set] at h2
          by_cases hi1 : i = p + 1
          · subst hi1
            have hpp : (p + 1 - 1) / 2 = p / 2 := by omega
            rw [hpp, getD_set_ne _ _ _ (by omega), getD_set_self _ _ hlen]
          · rw [getD_set_ne _ _ _ (fun he => hi1 he.symm)]
            by_cases hpi : (i - 1) / 2 = p + 1
            · rw [hpi, getD_set_self _ _ hlen]
              exact hG i h1 h2 hpi
            · rw [getD_set_ne _ _ _ (fun he => hpi he.symm)]
              exact hB i h1 h2 hi1
        have hC' : ∀ i, 0 < i → i < (arr.set (p + 1) (arr.getD (p / 2) 0)).length →
            (i - 1) / 2 = p / 2 → x ≤ (arr.set (p + 1) (arr.getD (p / 2) 0)).getD i 0 := by
          intro i h1 h2 h3
          rw [List.length_set] at h2
          by_cases hi1 : i = p + 1
          · subst hi1
            rw [getD_set_self _ _ hlen]
            exact le_of_lt hlt
          · rw [getD_set_ne _ _ _ (fun he => hi1 he.symm)]
            have hBi := hB i h1 h2 hi1
            rw [h3] at hBi
            exact le_of_lt (lt_of_lt_of_le hlt hBi)
        have hG' : ∀ i, 0 < i → i < (arr.set (p + 1) (arr.getD (p / 2) 0)).length →
            (i - 1) / 2 = p / 2 →
            (arr.set (p + 1) (arr.getD (p / 2) 0)).getD ((p / 2 - 1) / 2) 0 ≤
              (arr.set (p + 1) (arr.getD (p / 2) 0)).getD i 0 := by
          intro i h1 h2 h3
          rw [List.length_set] at h2
          rw [getD_set_ne _ _ _ (by omega : p + 1 ≠ (p / 2 - 1) / 2)]
          have hpar_le : arr.getD ((p / 2 - 1) / 2) 0 ≤ arr.getD (p / 2) 0 := by
            by_cases hz : p / 2 = 0
            · rw [hz]
            · exact hB (p / 2) (by omega) (by omega) (by omega)
          by_cases hi1 : i = p + 1
          · subst hi1
            rw [getD_set_self _ _ hlen]
            exact hpar_le
          · rw [getD_set_ne _ _ _ (fun he => hi1 he.symm)]
            have hBi := hB i h1 h2 hi1
            rw [h3] at hBi
            exact le_trans hpar_le hBi
        obtain ⟨hH, hP⟩ := ih (p / 2) (arr.set (p + 1) (arr.getD (p / 2) 0)) (by omega)
          (by rw [List.length_set]; omega) hB' hC' hG'
        refine ⟨hH, hP.trans ?_⟩
        exact set_getD_set_perm arr (p + 1) (p / 2) hlen (by omega) (by omega) x
      · have harr' : siftdownAux x (fuel + 1) arr (p + 1) = arr.set (p + 1) x := by
          rw [siftdownAux, if_neg hlt]
        rw [harr']
        refine ⟨isHeap_set_pos arr x (p + 1) hlen hB hC ?_, List.Perm.refl _⟩
        intro _
        exact not_lt.mp hlt

theorem set_append_last (h : List Int) (x : Int) :
    (h ++ [x]).set h.length x = h ++ [x] := by
  induction h with
  | nil => rfl
  | cons a t iht =>
    show a :: ((t ++ [x]).set t.length x) = a :: (t ++ [x])
    rw [iht]

theorem heappush_spec (h : List Int) (x : Int) (hh : IsHeap h) :
    IsHeap (heappush h x) ∧ (heappush h x).Perm (h ++ [x]) ∧
    (heappush h x).getD 0 0 = (if h = [] then x else min x (h.getD 0 0)) := by
  have hlen : h.length < (h ++ [x]).length := by simp
  have hB : ∀ i, 0 < i → i < (h ++ [x]).length → i ≠ h.length →
      (h ++ [x]).getD ((i - 1) / 2) 0 ≤ (h ++ [x]).getD i 0 := by
    intro i h1 h2 h3
    have hi : i < h.length := by
      simp only [List.length_append, List.length_singleton] at h2
      omega
    rw [List.getD_append _ _ _ _ hi, List.getD_append _ _ _ _ (by omega)]
    exact hh i h1 hi
  have hC : ∀ i, 0 < i → i < (h ++ [x]).length → (i - 1) / 2 = h.length →
      x ≤ (h ++ [x]).getD i 0 := by
    intro i h1 h2 h3
    simp only [List.length_append, List.length_singleton] at h2
    omega
  have hG : ∀ i, 0 < i → i < (h ++ [x]).length → (i - 1) / 2 = h.length →
      (h ++ [x]).getD ((h.length - 1) / 2) 0 ≤ (h ++ [x]).getD i 0 := by
    intro i h1 h2 h3
    simp only [List.length_append, List.length_singleton] at h2
    omega
  obtain ⟨hH, hP⟩ := siftdownAux_spec x h.length h.length (h ++ [x]) (le_refl _)
    hlen hB hC hG
  rw [set_append_last] at hP
  have hpush : heappush h x = siftdownAux x h.length (h ++ [x]) h.length := rfl
  rw [← hpush] at hH hP
  refine ⟨hH, hP, ?_⟩
  by_cases hne : h = []
  · subst hne
    rfl
  · rw [if_neg hne]
    have hrne : heappush h x ≠ [] := by
      intro he
      have hl := hP.length_eq
      rw [he] at hl
      simp at hl
    refine le_antisymm (le_min ?_ ?_) ?_
    · exact hH.root_le_mem (hP.mem_iff.mpr (List.mem_append_right _ (List.mem_singleton_self x)))
    · exact hH.root_le_mem (hP.mem_iff.mpr (List.mem_append_left _ (getD_zero_mem hne)))
    · rcases List.mem_append.mp (hP.mem_iff.mp (getD_zero_mem hrne)) with hm | hm
      · exact le_trans (min_le_right _ _) (hh.root_le_mem hm)
      · rw [List.mem_singleton] at hm
        rw [hm]
        exact min_le_left _ _

/-! ## Simulation of the batch column loop by the `TextBlock` column loop

The forward column loop of `_splice` for a fresh line
(`spliceNewCols`) and the batch loop `append_tab_sizes`
(`appendTabSizes`) allocate boxes/heaps in the same pattern; the heaps
hold the negated pushed values with the running maximum at the root. -/

theorem colLoop_sim :
    ∀ (ws : List Int) (col : Nat) (stB : BatchSt) (acc : NewAcc),
      acc.carried = stB.ts →
      acc.ts = stB.ts.take col →
      acc.nextId = stB.nextId →
      (∀ id ∈ stB.ts, id < stB.nextId) →
      HeapRel stB.val acc.heaps stB.nextId →
      (spliceNewCols acc col ws).carried = (appendTabSizes stB col ws).ts ∧
      (spliceNewCols acc col ws).ts =
        (appendTabSizes stB col ws).ts.take (col + ws.length) ∧
      (spliceNewCols acc col ws).nextId = (appendTabSizes stB col ws).nextId ∧
      (∀ id ∈ (appendTabSizes stB col ws).ts, id < (appendTabSizes stB col ws).nextId) ∧
      HeapRel (appendTabSizes stB col ws).val (spliceNewCols acc col ws).heaps
        (appendTabSizes stB col ws).nextId := by
  intro ws
  induction ws with
  | nil =>
    intro col stB acc h1 h2 h3 h4 h5
    simp only [spliceNewCols, appendTabSizes]
    exact ⟨h1, by simpa using h2, h3, h4, h5⟩
  | cons w ws ihw =>
    intro col stB acc h1 h2 h3 h4 h5
    by_cases hc : col < stB.ts.length
    · have hcb : col < acc.carried.length := by rw [h1]; exact hc
      have hstep1 : spliceNewCols acc col (w :: ws) =
          spliceNewCols { acc with
            ts := acc.ts ++ [acc.carried.getD col 0]
            heaps := setHeap acc.heaps (acc.carried.getD col 0)
              (heappush (acc.heaps (acc.carried.getD col 0)) (-w)) } (col + 1) ws := by
        rw [spliceNewCols, if_pos hcb]
      have hstep2 : appendTabSizes stB col (w :: ws) =
          appendTabSizes (boxUpdateMax stB (stB.ts.get ⟨col, hc⟩) w) (col + 1) ws := by
        rw [appendTabSizes, dif_pos hc]
      rw [hstep1, hstep2]
      have hgd : acc.carried.getD col 0 = stB.ts.get ⟨col, hc⟩ := by
        rw [h1, List.getD_eq_getElem _ _ hc]
        rfl
      have hmem : stB.ts.get ⟨col, hc⟩ ∈ stB.ts := List.getElem_mem hc
      have hid : stB.ts.get ⟨col, hc⟩ < stB.nextId := h4 _ hmem
      have happ := ihw (col + 1) (boxUpdateMax stB (stB.ts.get ⟨col, hc⟩) w)
        { acc with
          ts := acc.ts ++ [acc.carried.getD col 0]
          heaps := setHeap acc.heaps (acc.carried.getD col 0)
            (heappush (acc.heaps (acc.carried.getD col 0)) (-w)) }
        (by simpa [boxUpdateMax] using h1)
        (by
          simp only [boxUpdateMax]
          rw [h2, hgd, List.take_succ, List.getElem?_eq_getElem hc]
          rfl)
        (by simpa [boxUpdateMax] using h3)
        (by simpa [boxUpdateMax] using h4)
        (by
          intro id hidlt
          simp only [boxUpdateMax] at hidlt ⊢
          rcases h5 id hidlt with ⟨hheap, hne, hroot⟩
          rw [hgd]
          by_cases hii : id = stB.ts.get ⟨col, hc⟩
          · subst hii
            simp only [setHeap, eq_self_iff_true, if_true]
            obtain ⟨hH2, hP2, hroot2⟩ := heappush_spec _ (-w) hheap
            refine ⟨hH2, ?_, ?_⟩
            · intro he
              have hl := hP2.length_eq
              rw [he] at hl
              simp at hl
            · rw [hroot2, if_neg hne, hroot, min_neg_neg, max_comm]
          · simp only [setHeap, if_neg hii]
            exact ⟨hheap, hne, by rw [hroot]⟩)
      refine ⟨happ.1, ?_, happ.2.2.1, happ.2.2.2.1, happ.2.2.2.2⟩
      rw [happ.2.1]
      congr 1
      simp [Nat.add_comm, Nat.add_assoc, Nat.add_left_comm]
    · have hcb : ¬ col < acc.carried.length := by rw [h1]; exact hc
      have hstep1 : spliceNewCols acc col (w :: ws) =
          spliceNewCols { heaps := setHeap acc.heaps acc.nextId [-w]
                          nextId := acc.nextId + 1
                          ts := acc.ts ++ [acc.nextId]
                          carried := acc.ts ++ [acc.nextId] } (col + 1) ws := by
        rw [spliceNewCols, if_neg hcb]
      have hstep2 : appendTabSizes stB col (w :: ws) =
          appendTabSizes (boxAlloc stB w) (col + 1) ws := by
        rw [appendTabSizes, dif_neg hc]
      rw [hstep1, hstep2]
      have htsfull : acc.ts = stB.ts := by
        rw [h2, List.take_all_of_le (by omega)]
      have happ := ihw (col + 1) (boxAlloc stB w)
        { heaps := setHeap acc.heaps acc.nextId [-w]
          nextId := acc.nextId + 1
          ts := acc.ts ++ [acc.nextId]
          carried := acc.ts ++ [acc.nextId] }
        (by simp only [boxAlloc]; rw [htsfull, h3])
        (by
          simp only [boxAlloc]
          rw [htsfull, h3, List.take_all_of_le (by simp; omega)])
        (by simp [boxAlloc, h3])
        (by
          intro id hidm
          simp only [boxAlloc, List.mem_append, List.mem_singleton] at hidm
          rcases hidm with hm | hm
          · exact Nat.lt_succ_of_lt (h4 id hm)
          · simp [boxAlloc, hm])
        (by
          intro id hidlt
          simp only [boxAlloc] at hidlt ⊢
          rw [h3]
          by_cases hii : id = stB.nextId
          · subst hii
            simp only [setHeap, if_pos rfl, if_pos rfl]
            refine ⟨?_, by simp, by simp⟩
            intro i h1i h2i
            simp at h2i
            omega
          · have hlt : id < stB.nextId := by omega
            simp only [setHeap, if_neg hii]
            rcases h5 id hlt with ⟨hheap, hne, hroot⟩
            exact ⟨hheap, hne, by rw [hroot]⟩)
      refine ⟨happ.1, ?_, happ.2.2.1, happ.2.2.2.1, happ.2.2.2.2⟩
      rw [happ.2.1]
      congr 1
      simp [Nat.add_comm, Nat.add_assoc, Nat.add_left_comm]

/-! ## `TextBlock.append` computes `appendPure` -/

theorem pySetSlice_at_end (l new : List β) :
    pySetSlice l l.length l.length new = l ++ new := by
  unfold pySetSlice pySliceIdx
  rw [if_neg (by omega : ¬ ((l.length : Int) < 0)), Int.toNat_natCast, min_self, max_self,
    List.take_length, List.drop_length, List.append_nil]

theorem pyGetInt_natCast (l : List β) (n : Nat) : pyGetInt l n = l[n]? := by
  simp [pyGetInt]

theorem set_append_len (l : List β) (a x : β) :
    (l ++ [a]).set l.length x = l ++ [x] := by
  induction l with
  | nil => rfl
  | cons c t iht =>
    show c :: ((t ++ [a]).set t.length x) = c :: (t ++ [x])
    rw [iht]

theorem pyGetSlice_last (l : List β) (a : β) :
    pyGetSlice (l ++ [a]) l.length ((l.length : Int) + 1) = [a] := by
  have h1 : pySliceIdx (l ++ [a]).length l.length = l.length := by
    simp [pySliceIdx]
  have h2 : pySliceIdx (l ++ [a]).length ((l.length : Int) + 1) = l.length + 1 := by
    simp only [pySliceIdx, List.length_append, List.length_singleton]
    rw [if_neg (by omega)]
    have : ((l.length : Int) + 1).toNat = l.length + 1 := by omega
    rw [this]
    omega
  unfold pyGetSlice
  rw [h1, h2, List.drop_left]
  simp

theorem append_eq_appendPure (b : TextBlock α) (ln : List α)
    (hwf : b.tabSizes.length = b.lines.length) :
    TextBlock.append b ln = (appendPure b ln, none) := by
  unfold TextBlock.append TextBlock._splice
  rw [if_neg (by omega : ¬ (b.lines.length : Int) < 0)]
  unfold spliceResolved
  rw [xrange_of_le (le_refl _)]
  show spliceAfterRemove b _ _ [ln] b.heaps = _
  unfold spliceAfterRemove
  have hset1 : pySetSlice b.lines (b.lines.length : Int) (b.lines.length : Int) [ln] =
      b.lines ++ [ln] := pySetSlice_at_end b.lines [ln]
  have hset2 : pySetSlice b.tabSizes (b.lines.length : Int) (b.lines.length : Int)
      (List.map (fun _ => []) [ln]) = b.tabSizes ++ [[]] := by
    rw [← hwf]
    exact pySetSlice_at_end b.tabSizes [[]]
  rw [hset1, hset2]
  dsimp only
  have hcarried : (if 0 < (b.lines.length : Int) then
      pyGetInt (b.tabSizes ++ [[]]) ((b.lines.length : Int) - 1) else some []) =
      some (b.tabSizes.getLastD []) := by
    by_cases hn : 0 < (b.lines.length : Int)
    · rw [if_pos hn]
      have hlen : 0 < b.tabSizes.length := by omega
      have ht : ((b.lines.length : Int) - 1) = ((b.tabSizes.length - 1 : Nat) : Int) := by
        omega
      rw [ht, pyGetInt_natCast, List.getElem?_append_left (by omega),
        List.getLastD_eq_getLast?, List.getLast?_eq_getElem?]
      cases he : b.tabSizes[b.tabSizes.length - 1]? with
      | none =>
        rw [List.getElem?_eq_none_iff] at he
        omega
      | some v => rfl
    · rw [if_neg hn]
      have : b.tabSizes = [] := List.length_eq_zero.mp (by omega)
      rw [this]
      rfl
  rw [hcarried]
  dsimp only
  have hrange : pyGetSlice (b.lines ++ [ln]) (b.lines.length : Int)
      ((b.lines.length : Int) + ([ln].length : Int)) = [ln] := by
    have : (([ln].length : Nat) : Int) = 1 := by rfl
    rw [this]
    exact pyGetSlice_last b.lines ln
  rw [hrange]
  have hget0 : pyGetInt (b.tabSizes ++ [[]])
      ((b.lines.length : Int) + ((0 : Nat) : Int)) = some [] := by
    have : ((b.lines.length : Int) + ((0 : Nat) : Int)) = ((b.tabSizes.length : Nat) : Int) := by
      omega
    rw [this, pyGetInt_natCast]
    simp
  have hnew : spliceNewLoop b.tab_stops b.size_func (b.lines.length : Int) [ln] 0
      (b.tabSizes ++ [[]]) b.heaps b.nextId (b.tabSizes.getLastD []) =
      ((b.tabSizes ++
          [(spliceNewCols ⟨b.heaps, b.nextId, [], b.tabSizes.getLastD []⟩ 0
            (lineWidths b.tab_stops b.size_func ln)).ts],
        (spliceNewCols ⟨b.heaps, b.nextId, [], b.tabSizes.getLastD []⟩ 0
          (lineWidths b.tab_stops b.size_func ln)).heaps,
        (spliceNewCols ⟨b.heaps, b.nextId, [], b.tabSizes.getLastD []⟩ 0
          (lineWidths b.tab_stops b.size_func ln)).nextId,
        (spliceNewCols ⟨b.heaps, b.nextId, [], b.tabSizes.getLastD []⟩ 0
          (lineWidths b.tab_stops b.size_func ln)).carried.take
            (lineWidths b.tab_stops b.size_func ln).length), none) := by
    unfold spliceNewLoop
    rw [hget0]
    unfold spliceNewLoop
    have hsetint : pySetInt (b.tabSizes ++ [[]])
        ((b.lines.length : Int) + ((0 : Nat) : Int))
        (spliceNewCols ⟨b.heaps, b.nextId, [], b.tabSizes.getLastD []⟩ 0
          (lineWidths b.tab_stops b.size_func ln)).ts =
        b.tabSizes ++
          [(spliceNewCols ⟨b.heaps, b.nextId, [], b.tabSizes.getLastD []⟩ 0
            (lineWidths b.tab_stops b.size_func ln)).ts] := by
      unfold pySetInt
      rw [if_pos (by omega)]
      have : ((b.lines.length : Int) + ((0 : Nat) : Int)).toNat = b.tabSizes.length := by
        omega
      rw [this, set_append_len]
    rw [hsetint]
  rw [hnew]
  dsimp only
  rw [if_neg (by simp :
    ¬ ((b.lines.length : Int) + ([ln].length : Int) <
      ((b.lines ++ [ln]).length : Int)))]
  unfold appendPure
  rfl

/-! ## The batch run simulates the sequence of appends -/

theorem appendTabSizes_nextId_le :
    ∀ (ws : List Int) (col : Nat) (st : BatchSt),
      st.nextId ≤ (appendTabSizes st col ws).nextId := by
  intro ws
  induction ws with
  | nil => intro col st; exact le_refl _
  | cons w rest ih =>
    intro col st
    rw [appendTabSizes]
    by_cases hc : col < st.ts.length
    · rw [dif_pos hc]
      exact ih (col + 1) (boxUpdateMax st (st.ts.get ⟨col, hc⟩) w)
    · rw [dif_neg hc]
      exact le_trans (Nat.le_succ _) (ih (col + 1) (boxAlloc st w))

theorem batch_block_sim (t : TabStops) (f : α → Nat) :
    ∀ (rest : List (List α)) (st : BatchSt) (B : TextBlock α),
      B.tab_stops = t → B.size_func = f →
      B.tabSizes.length = B.lines.length →
      st.ts = B.tabSizes.getLastD [] →
      st.nextId = B.nextId →
      (∀ id ∈ st.ts, id < st.nextId) →
      HeapRel st.val B.heaps st.nextId →
      (rest.foldl (fun b ln => (b.append ln).1) B).tab_stops = t ∧
      (rest.foldl (fun b ln => (b.append ln).1) B).size_func = f ∧
      (rest.foldl (fun b ln => (b.append ln).1) B).lines = B.lines ++ rest ∧
      (rest.foldl (fun b ln => (b.append ln).1) B).tabSizes =
        B.tabSizes ++ (batchLines t f st rest).2 ∧
      (rest.foldl (fun b ln => (b.append ln).1) B).nextId =
        (batchLines t f st rest).1.nextId ∧
      HeapRel (batchLines t f st rest).1.val
        (rest.foldl (fun b ln => (b.append ln).1) B).heaps
        (batchLines t f st rest).1.nextId ∧
      (batchLines t f st rest).1.ts =
        (rest.foldl (fun b ln => (b.append ln).1) B).tabSizes.getLastD [] ∧
      (∀ id ∈ (batchLines t f st rest).1.ts, id < (batchLines t f st rest).1.nextId) ∧
      (∀ row ∈ (batchLines t f st rest).2, ∀ id ∈ row,
        id < (batchLines t f st rest).1.nextId) ∧
      st.nextId ≤ (batchLines t f st rest).1.nextId ∧
      (batchLines t f st rest).2.length = rest.length := by
  intro rest
  induction rest with
  | nil =>
    intro st B hbt hbf hwf hts hnid hlt hrel
    simp only [List.foldl_nil, batchLines]
    exact ⟨hbt, hbf, by simp, by simp, hnid.symm, hrel, hts, hlt, by simp, le_refl _, rfl⟩
  | cons ln rest' ih =>
    intro st B hbt hbf hwf hts hnid hlt hrel
    have happend : TextBlock.append B ln = (appendPure B ln, none) :=
      append_eq_appendPure B ln hwf
    have hfold : (ln :: rest').foldl (fun b l => (b.append l).1) B =
        rest'.foldl (fun b l => (b.append l).1) (appendPure B ln) := by
      rw [List.foldl_cons, happend]
    have hws : lineWidths B.tab_stops B.size_func ln = lineWidths t f ln := by
      rw [hbt, hbf]
    have hcol := colLoop_sim (lineWidths t f ln) 0 st
      ⟨B.heaps, B.nextId, [], B.tabSizes.getLastD []⟩
      (by show B.tabSizes.getLastD [] = st.ts; rw [hts])
      (by show ([] : List Nat) = st.ts.take 0; rw [List.take_zero])
      (by show B.nextId = st.nextId; rw [hnid])
      hlt
      (by show HeapRel st.val B.heaps st.nextId; exact hrel)
    obtain ⟨hc1, hc2, hc3, hc4, hc5⟩ := hcol
    have hbatchstep : batchLines t f st (ln :: rest') =
        ((batchLines t f (batchLineStep t f st ln).1 rest').1,
          (batchLineStep t f st ln).2 :: (batchLines t f (batchLineStep t f st ln).1 rest').2) := by
      rw [batchLines]
    have hpure : appendPure B ln =
        { B with
          lines := B.lines ++ [ln]
          tabSizes := B.tabSizes ++
            [(spliceNewCols ⟨B.heaps, B.nextId, [], B.tabSizes.getLastD []⟩ 0
              (lineWidths t f ln)).ts]
          heaps := (spliceNewCols ⟨B.heaps, B.nextId, [], B.tabSizes.getLastD []⟩ 0
            (lineWidths t f ln)).heaps
          nextId := (spliceNewCols ⟨B.heaps, B.nextId, [], B.tabSizes.getLastD []⟩ 0
            (lineWidths t f ln)).nextId } := by
      unfold appendPure
      rw [hws]
    have hstep1 : (batchLineStep t f st ln).1 =
        { appendTabSizes st 0 (lineWidths t f ln) with
          ts := (appendTabSizes st 0 (lineWidths t f ln)).ts.take
            (lineWidths t f ln).length } := rfl
    have hstep2 : (batchLineStep t f st ln).2 =
        (appendTabSizes st 0 (lineWidths t f ln)).ts.take
          (lineWidths t f ln).length := rfl
    have hrow : (spliceNewCols ⟨B.heaps, B.nextId, [], B.tabSizes.getLastD []⟩ 0
        (lineWidths t f ln)).ts = (batchLineStep t f st ln).2 := by
      rw [hstep2, hc2, Nat.zero_add]
    have hih := ih (batchLineStep t f st ln).1 (appendPure B ln)
      (by rw [hpure]; exact hbt)
      (by rw [hpure]; exact hbf)
      (by rw [hpure]; simp [hwf])
      (by
        rw [hpure, hstep1]
        show (appendTabSizes st 0 (lineWidths t f ln)).ts.take (lineWidths t f ln).length =
          (B.tabSizes ++
            [(spliceNewCols ⟨B.heaps, B.nextId, [], B.tabSizes.getLastD []⟩ 0
              (lineWidths t f ln)).ts]).getLastD []
        rw [hrow]
        simp only [List.getLastD_eq_getLast?, List.getLast?_concat, Option.getD_some]
        exact hstep2.symm)
      (by rw [hpure, hstep1]; exact hc3.symm)
      (by
        rw [hstep1]
        intro id hm
        exact hc4 id (List.take_subset _ _ hm))
      (by rw [hpure, hstep1]; exact hc5)
    rw [hfold, hbatchstep] at *
    obtain ⟨g1, g2, g3, g4, g5, g6, g7, g8, g9, g10, g11⟩ := hih
    refine ⟨g1, g2, ?_, ?_, g5, g6, g7, g8, ?_, ?_, ?_⟩
    · rw [g3, hpure]
      simp
    · rw [g4, hpure]
      dsimp only
      rw [hrow, List.append_assoc]
      rfl
    · intro row hmrow id hmid
      simp only [List.mem_cons] at hmrow
      rcases hmrow with hr | hr
      · subst hr
        have hid0 : id < (batchLineStep t f st ln).1.nextId := by
          rw [hstep1, hstep2] at *
          exact hc4 id (List.take_subset _ _ hmid)
        exact lt_of_lt_of_le hid0 g10
      · exact g9 row hr id hmid
    · refine le_trans ?_ g10
      rw [hstep1]
      exact appendTabSizes_nextId_le _ 0 st
    · simp [g11]

theorem pyGetSlice_full (l : List β) : pyGetSlice l 0 (l.length : Int) = l := by
  unfold pyGetSlice pySliceIdx
  rw [if_neg (by omega : ¬ ((0 : Int) < 0)), if_neg (by omega : ¬ ((l.length : Int) < 0))]
  simp

theorem headD_eq_getD (l : List Int) : l.headD 0 = l.getD 0 0 := by
  cases l <;> rfl

/-- C3: for every finite list of lines and every `TabStops` policy (and
any size function), the batch algorithm `iter_tab_sizes` with no hints
returns exactly the width rows that `TextBlock.iter_tab_sizes` reports
on the block built by starting empty and appending each line one at a
time with `edit(length, length, [line])`. -/
theorem C3_batch_equals_incremental_appends (lines : List (List α)) (t : TabStops)
    (f : α → Nat) :
    iter_tab_sizes lines t f [] [] = (appendAll t f lines).iter_tab_sizes_all := by
  have hinit : (TextBlock.init t f ([] : List (List α))).1 =
      ⟨t, f, [], [], fun _ => [], 0⟩ := rfl
  have hsim := batch_block_sim t f lines (batchInit [])
    (⟨t, f, [], [], fun _ => [], 0⟩ : TextBlock α)
    rfl rfl rfl rfl rfl
    (by intro id h; exact absurd h (List.not_mem_nil id))
    (by intro id h; exact absurd h (Nat.not_lt_zero id))
  obtain ⟨g1, g2, g3, g4, g5, g6, g7, g8, g9, g10, g11⟩ := hsim
  unfold appendAll
  rw [hinit]
  unfold iter_tab_sizes TextBlock.iter_tab_sizes_all TextBlock.iter_tab_sizes
  dsimp only
  have hlenB : (lines.foldl (fun b ln => (b.append ln).1)
      (⟨t, f, [], [], fun _ => [], 0⟩ : TextBlock α)).tabSizes.length =
      (lines.foldl (fun b ln => (b.append ln).1)
        (⟨t, f, [], [], fun _ => [], 0⟩ : TextBlock α)).lines.length := by
    rw [g3, g4]
    simp [g11]
  have hslice : pyGetSlice (lines.foldl (fun b ln => (b.append ln).1)
      (⟨t, f, [], [], fun _ => [], 0⟩ : TextBlock α)).tabSizes 0
      (((lines.foldl (fun b ln => (b.append ln).1)
        (⟨t, f, [], [], fun _ => [], 0⟩ : TextBlock α)).lines.length : Nat) : Int) =
      (lines.foldl (fun b ln => (b.append ln).1)
        (⟨t, f, [], [], fun _ => [], 0⟩ : TextBlock α)).tabSizes := by
    rw [← hlenB]
    exact pyGetSlice_full _
  rw [hslice, g4, List.nil_append]
  apply List.map_congr_left
  intro row hrow
  apply List.map_congr_left
  intro id hid
  have hidlt := g9 row hrow id hid
  obtain ⟨-, -, hroot⟩ := g6 id hidlt
  rw [headD_eq_getD, hroot, neg_neg]
  rfl

/-! ## Claim C7: runs report their final maximum -/

/-! ## `appendTabSizes` analysis -/

theorem getD_take_lt (l : List Nat) (n k : Nat) (h : k < n) :
    (l.take n).getD k 0 = l.getD k 0 := by
  rw [List.getD_eq_getElem?_getD, List.getD_eq_getElem?_getD, List.getElem?_take, if_pos h]

theorem getD_drop_add (l : List (List α)) (a k : Nat) :
    (l.drop a).getD k [] = l.getD (a + k) [] := by
  rw [List.getD_eq_getElem?_getD, List.getD_eq_getElem?_getD, List.getElem?_drop]

theorem ats_ts_ext (ws : List Int) :
    ∀ (st : BatchSt) (col : Nat), ∃ suf : List Nat,
      (appendTabSizes st col ws).ts = st.ts ++ suf ∧ ∀ x ∈ suf, st.nextId ≤ x := by
  induction ws with
  | nil =>
    intro st col
    exact ⟨[], by simp [appendTabSizes], by simp⟩
  | cons w rest ih =>
    intro st col
    rw [appendTabSizes]
    by_cases hc : col < st.ts.length
    · rw [dif_pos hc]
      exact ih (boxUpdateMax st (st.ts.get ⟨col, hc⟩) w) (col + 1)
    · rw [dif_neg hc]
      obtain ⟨suf, h1, h2⟩ := ih (boxAlloc st w) (col + 1)
      refine ⟨st.nextId :: suf, ?_, ?_⟩
      · rw [h1]
        simp [boxAlloc]
      · intro x hx
        rcases List.mem_cons.mp hx with h | h
        · omega
        · have := h2 x h
          simp only [boxAlloc] at this
          omega

theorem ats_ts_length (ws : List Int) :
    ∀ (st : BatchSt) (col : Nat), col ≤ st.ts.length →
      (appendTabSizes st col ws).ts.length = max st.ts.length (col + ws.length) := by
  induction ws with
  | nil =>
    intro st col h
    rw [appendTabSizes]
    simp
    omega
  | cons w rest ih =>
    intro st col h
    rw [appendTabSizes]
    by_cases hc : col < st.ts.length
    · rw [dif_pos hc]
      have hrec := ih (boxUpdateMax st (st.ts.get ⟨col, hc⟩) w) (col + 1) hc
      rw [hrec]
      simp only [boxUpdateMax, List.length_cons]
      omega
    · rw [dif_neg hc]
      have hlen : (boxAlloc st w).ts.length = st.ts.length + 1 := by
        simp [boxAlloc]
      have hrec := ih (boxAlloc st w) (col + 1) (by omega)
      rw [hrec, hlen]
      simp only [List.length_cons]
      omega

theorem ats_bound (ws : List Int) :
    ∀ (st : BatchSt) (col : Nat), (∀ x ∈ st.ts, x < st.nextId) →
      (∀ x ∈ (appendTabSizes st col ws).ts, x < (appendTabSizes st col ws).nextId) ∧
        st.nextId ≤ (appendTabSizes st col ws).nextId := by
  induction ws with
  | nil =>
    intro st col h
    exact ⟨h, le_refl _⟩
  | cons w rest ih =>
    intro st col h
    rw [appendTabSizes]
    by_cases hc : col < st.ts.length
    · rw [dif_pos hc]
      exact ih (boxUpdateMax st (st.ts.get ⟨col, hc⟩) w) (col + 1) h
    · rw [dif_neg hc]
      have hb1 : ∀ x ∈ (boxAlloc st w).ts, x < (boxAlloc st w).nextId := by
        intro x hx
        simp only [boxAlloc] at hx ⊢
        rcases List.mem_append.mp hx with h1 | h1
        · exact lt_trans (h x h1) (Nat.lt_succ_self _)
        · simp at h1
          omega
      obtain ⟨g1, g2⟩ := ih (boxAlloc st w) (col + 1) hb1
      exact ⟨g1, le_trans (Nat.le_succ _) g2⟩

theorem ats_nodup (ws : List Int) :
    ∀ (st : BatchSt) (col : Nat), (∀ x ∈ st.ts, x < st.nextId) → st.ts.Nodup →
      (appendTabSizes st col ws).ts.Nodup := by
  induction ws with
  | nil =>
    intro st col _ hnd
    exact hnd
  | cons w rest ih =>
    intro st col hb hnd
    rw [appendTabSizes]
    by_cases hc : col < st.ts.length
    · rw [dif_pos hc]
      exact ih (boxUpdateMax st (st.ts.get ⟨col, hc⟩) w) (col + 1) hb hnd
    · rw [dif_neg hc]
      have hb1 : ∀ x ∈ (boxAlloc st w).ts, x < (boxAlloc st w).nextId := by
        intro x hx
        simp only [boxAlloc] at hx ⊢
        rcases List.mem_append.mp hx with h1 | h1
        · exact lt_trans (hb x h1) (Nat.lt_succ_self _)
        · simp at h1
          omega
      have hnd1 : (boxAlloc st w).ts.Nodup := by
        show (st.ts ++ [st.nextId]).Nodup
        rw [(List.perm_append_singleton _ _).nodup_iff, List.nodup_cons]
        exact ⟨fun hmem => absurd (hb _ hmem) (lt_irrefl _), hnd⟩
      exact ih (boxAlloc st w) (col + 1) hb1 hnd1

theorem ats_val_frame (ws : List Int) :
    ∀ (st : BatchSt) (col : Nat) (id : Nat), id < st.nextId →
      (∀ k, col ≤ k → k < st.ts.length → st.ts.getD k 0 ≠ id) →
      (appendTabSizes st col ws).val id = st.val id := by
  induction ws with
  | nil =>
    intro st col id _ _
    rfl
  | cons w rest ih =>
    intro st col id hlt hne
    rw [appendTabSizes]
    by_cases hc : col < st.ts.length
    · rw [dif_pos hc]
      have hgetD : st.ts.getD col 0 = st.ts.get ⟨col, hc⟩ := List.getD_eq_getElem _ _ hc
      have h1 : (appendTabSizes (boxUpdateMax st (st.ts.get ⟨col, hc⟩) w) (col + 1) rest).val id
          = (boxUpdateMax st (st.ts.get ⟨col, hc⟩) w).val id :=
        ih _ _ _ hlt (fun k hk1 hk2 => hne k (by omega) hk2)
      rw [h1]
      show (if id = st.ts.get ⟨col, hc⟩ then _ else st.val id) = st.val id
      rw [if_neg (fun heq => hne col (le_refl _) hc (hgetD.trans heq.symm))]
    · rw [dif_neg hc]
      have h1 : (appendTabSizes (boxAlloc st w) (col + 1) rest).val id
          = (boxAlloc st w).val id := by
        apply ih
        · show id < st.nextId + 1
          omega
        · intro k hk1 hk2
          simp only [boxAlloc, List.length_append, List.length_cons, List.length_nil] at hk2
          by_cases hkl : k < st.ts.length
          · show (st.ts ++ [st.nextId]).getD k 0 ≠ id
            rw [List.getD_append _ _ _ _ hkl]
            exact hne k (by omega) hkl
          · show (st.ts ++ [st.nextId]).getD k 0 ≠ id
            rw [List.getD_append_right _ _ _ _ (by omega)]
            have hk : k = st.ts.length := by omega
            rw [hk]
            simp
            omega
      rw [h1]
      show (if id = st.nextId then w else st.val id) = st.val id
      rw [if_neg (by omega)]


theorem ats_val_at (ws : List Int) :
    ∀ (st : BatchSt) (col c : Nat), st.ts.Nodup → (∀ x ∈ st.ts, x < st.nextId) →
      col ≤ c → c < st.ts.length →
      (appendTabSizes st col ws).val (st.ts.getD c 0) =
        if c - col < ws.length
        then max (st.val (st.ts.getD c 0)) (ws.getD (c - col) 0)
        else st.val (st.ts.getD c 0) := by
  induction ws with
  | nil =>
    intro st col c _ _ _ _
    rw [appendTabSizes, if_neg (by simp)]
  | cons w rest ih =>
    intro st col c hnd hb hcol hc
    have hcl : col < st.ts.length := lt_of_le_of_lt hcol hc
    rw [appendTabSizes, dif_pos hcl]
    have hgetD : st.ts.get ⟨col, hcl⟩ = st.ts.getD col 0 :=
      (List.getD_eq_getElem _ _ hcl).symm
    by_cases hceq : c = col
    · subst hceq
      have hframe : (appendTabSizes (boxUpdateMax st (st.ts.get ⟨c, hcl⟩) w) (c + 1) rest).val
          (st.ts.getD c 0) = (boxUpdateMax st (st.ts.get ⟨c, hcl⟩) w).val (st.ts.getD c 0) := by
        apply ats_val_frame
        · show st.ts.getD c 0 < st.nextId
          rw [List.getD_eq_getElem _ _ hc]
          exact hb _ (List.getElem_mem hc)
        · intro k hk1 hk2 heq
          have hk2s : k < st.ts.length := hk2
          have heq2 : st.ts[k] = st.ts[c] := by
            rw [← List.getD_eq_getElem _ 0 hk2s, ← List.getD_eq_getElem _ 0 hc]
            exact heq
          have := (hnd.getElem_inj_iff).mp heq2
          omega
      rw [hframe]
      show (if st.ts.getD c 0 = st.ts.get ⟨c, hcl⟩ then
          max (st.val (st.ts.getD c 0)) w else st.val (st.ts.getD c 0)) = _
      rw [if_pos (by rw [hgetD]), if_pos (by simp), Nat.sub_self, List.getD_cons_zero]
    · have hcol1 : col + 1 ≤ c := by omega
      have hih := ih (boxUpdateMax st (st.ts.get ⟨col, hcl⟩) w) (col + 1) c hnd hb hcol1 hc
      have hne : st.ts.getD c 0 ≠ st.ts.get ⟨col, hcl⟩ := by
        intro heq
        have heq2 : st.ts[c] = st.ts[col] := by
          rw [← List.getD_eq_getElem _ 0 hc, heq, hgetD, List.getD_eq_getElem _ 0 hcl]
        exact hceq ((hnd.getElem_inj_iff).mp heq2)
      have hval : (boxUpdateMax st (st.ts.get ⟨col, hcl⟩) w).val (st.ts.getD c 0)
          = st.val (st.ts.getD c 0) := by
        show (if st.ts.getD c 0 = st.ts.get ⟨col, hcl⟩ then _ else st.val (st.ts.getD c 0))
          = st.val (st.ts.getD c 0)
        rw [if_neg hne]
      have hts : (boxUpdateMax st (st.ts.get ⟨col, hcl⟩) w).ts = st.ts := rfl
      rw [hts] at hih
      rw [hih, hval]
      have hidx : c - col = (c - (col + 1)) + 1 := by omega
      by_cases hlt : c - (col + 1) < rest.length
      · rw [if_pos hlt, if_pos (by simp only [List.length_cons]; omega),
          hidx, List.getD_cons_succ]
      · rw [if_neg hlt, if_neg (by simp only [List.length_cons]; omega)]

theorem ats_fresh (ws : List Int) :
    ∀ (st : BatchSt) (col c : Nat), col ≤ st.ts.length → st.ts.length ≤ c →
      c < col + ws.length → (∀ x ∈ st.ts, x < st.nextId) →
      (appendTabSizes st col ws).ts.getD c 0 = st.nextId + (c - st.ts.length) ∧
        (appendTabSizes st col ws).val (st.nextId + (c - st.ts.length)) =
          ws.getD (c - col) 0 := by
  induction ws with
  | nil =>
    intro st col c h1 h2 h3 _
    simp only [List.length_nil, Nat.add_zero] at h3
    omega
  | cons w rest ih =>
    intro st col c hcol hlc hcw hb
    rw [appendTabSizes]
    by_cases hc : col < st.ts.length
    · rw [dif_pos hc]
      have hrec := ih (boxUpdateMax st (st.ts.get ⟨col, hc⟩) w) (col + 1) c hc hlc
        (by simp only [List.length_cons] at hcw; omega) hb
      have hidx : c - col = (c - (col + 1)) + 1 := by omega
      rw [hidx, List.getD_cons_succ]
      exact hrec
    · have hcoleq : col = st.ts.length := by omega
      rw [dif_neg hc]
      have hblen : (boxAlloc st w).ts.length = st.ts.length + 1 := by
        simp [boxAlloc]
      have hbb : ∀ x ∈ (boxAlloc st w).ts, x < (boxAlloc st w).nextId := by
        intro x hx
        simp only [boxAlloc] at hx ⊢
        rcases List.mem_append.mp hx with h1 | h1
        · exact lt_trans (hb x h1) (Nat.lt_succ_self _)
        · simp at h1
          omega
      by_cases hceq : c = st.ts.length
      · constructor
        · obtain ⟨suf, hsuf, -⟩ := ats_ts_ext rest (boxAlloc st w) (col + 1)
          rw [hsuf]
          show ((st.ts ++ [st.nextId]) ++ suf).getD c 0 = st.nextId + (c - st.ts.length)
          rw [List.getD_append _ _ _ _ (by simp only [List.length_append,
            List.length_cons, List.length_nil]; omega)]
          rw [List.getD_append_right _ _ _ _ (by omega), hceq]
          simp
        · have hframe : (appendTabSizes (boxAlloc st w) (col + 1) rest).val st.nextId
              = (boxAlloc st w).val st.nextId := by
            apply ats_val_frame
            · show st.nextId < st.nextId + 1
              omega
            · intro k hk1 hk2
              rw [hblen] at hk2
              omega
          have h0 : c - st.ts.length = 0 := by omega
          rw [h0]
          show (appendTabSizes (boxAlloc st w) (col + 1) rest).val st.nextId
            = (w :: rest).getD (c - col) 0
          rw [hframe]
          show (if st.nextId = st.nextId then w else st.val st.nextId)
            = (w :: rest).getD (c - col) 0
          have h1 : c - col = 0 := by omega
          rw [if_pos rfl, h1, List.getD_cons_zero]
      · have hrec := ih (boxAlloc st w) (col + 1) c (by omega) (by omega)
          (by simp only [List.length_cons] at hcw; omega) hbb
        rw [hblen] at hrec
        have heq1 : (boxAlloc st w).nextId + (c - (st.ts.length + 1))
            = st.nextId + (c - st.ts.length) := by
          show st.nextId + 1 + (c - (st.ts.length + 1)) = st.nextId + (c - st.ts.length)
          omega
        rw [heq1] at hrec
        have hidx : c - col = (c - (col + 1)) + 1 := by omega
        rw [hidx, List.getD_cons_succ]
        exact hrec


/-! ## The per-line step and the whole batch run -/

theorem getD_mem_of_lt (l : List Nat) (k : Nat) (hk : k < l.length) : l.getD k 0 ∈ l := by
  rw [List.getD_eq_getElem _ _ hk]
  exact List.getElem_mem hk

theorem lineWidths_length (t : TabStops) (f : α → Nat) (ln : List α) :
    (lineWidths t f ln).length = colcount ln := by
  simp [lineWidths, ignore_last, colcount]

theorem lineStep_basic (t : TabStops) (f : α → Nat) (st : BatchSt) (ln : List α)
    (h1 : st.ts.Nodup) (h2 : ∀ x ∈ st.ts, x < st.nextId) :
    (batchLineStep t f st ln).1.ts.Nodup ∧
    (∀ x ∈ (batchLineStep t f st ln).1.ts, x < (batchLineStep t f st ln).1.nextId) ∧
    (batchLineStep t f st ln).1.ts.length = colcount ln ∧
    (batchLineStep t f st ln).2 = (batchLineStep t f st ln).1.ts ∧
    st.nextId ≤ (batchLineStep t f st ln).1.nextId := by
  refine ⟨?_, ?_, ?_, rfl, ?_⟩
  · show ((appendTabSizes st 0 (lineWidths t f ln)).ts.take
      (lineWidths t f ln).length).Nodup
    exact (List.take_sublist _ _).nodup (ats_nodup _ st 0 h2 h1)
  · intro x hx
    show x < (appendTabSizes st 0 (lineWidths t f ln)).nextId
    exact (ats_bound _ st 0 h2).1 x (List.mem_of_mem_take hx)
  · show ((appendTabSizes st 0 (lineWidths t f ln)).ts.take
      (lineWidths t f ln).length).length = colcount ln
    rw [List.length_take, ats_ts_length _ st 0 (Nat.zero_le _), lineWidths_length]
    omega
  · show st.nextId ≤ (appendTabSizes st 0 (lineWidths t f ln)).nextId
    exact appendTabSizes_nextId_le _ 0 st

theorem lineStep_live (t : TabStops) (f : α → Nat) (st : BatchSt) (ln : List α) (c : Nat)
    (h1 : st.ts.Nodup) (h2 : ∀ x ∈ st.ts, x < st.nextId)
    (hc : c < st.ts.length) (hcW : c < colcount ln) :
    (batchLineStep t f st ln).1.ts.getD c 0 = st.ts.getD c 0 ∧
    (batchLineStep t f st ln).1.val (st.ts.getD c 0) =
      max (st.val (st.ts.getD c 0)) (colWidth t f ln c) := by
  have hcw : c < (lineWidths t f ln).length := by
    rw [lineWidths_length]
    exact hcW
  constructor
  · show ((appendTabSizes st 0 (lineWidths t f ln)).ts.take
      (lineWidths t f ln).length).getD c 0 = st.ts.getD c 0
    rw [getD_take_lt _ _ _ hcw]
    obtain ⟨suf, hsuf, -⟩ := ats_ts_ext (lineWidths t f ln) st 0
    rw [hsuf, List.getD_append _ _ _ _ hc]
  · show (appendTabSizes st 0 (lineWidths t f ln)).val (st.ts.getD c 0) = _
    have := ats_val_at (lineWidths t f ln) st 0 c h1 h2 (Nat.zero_le c) hc
    simp only [Nat.sub_zero] at this
    rw [this, if_pos hcw]
    rfl

theorem lineStep_dead (t : TabStops) (f : α → Nat) (st : BatchSt) (ln : List α) (c : Nat)
    (h1 : st.ts.Nodup) (h2 : ∀ x ∈ st.ts, x < st.nextId)
    (hc : c < st.ts.length) (hcW : ¬ c < colcount ln) :
    st.ts.getD c 0 ∉ (batchLineStep t f st ln).1.ts ∧
    (batchLineStep t f st ln).1.val (st.ts.getD c 0) = st.val (st.ts.getD c 0) := by
  have hcw : ¬ c < (lineWidths t f ln).length := by
    rw [lineWidths_length]
    exact hcW
  constructor
  · intro hmem
    have hmem2 : st.ts.getD c 0 ∈ (appendTabSizes st 0 (lineWidths t f ln)).ts :=
      List.mem_of_mem_take hmem
    have hlen : ((appendTabSizes st 0 (lineWidths t f ln)).ts.take
        (lineWidths t f ln).length).length = (lineWidths t f ln).length := by
      rw [List.length_take, ats_ts_length _ st 0 (Nat.zero_le _)]
      omega
    obtain ⟨k, hk, hkeq⟩ := List.mem_iff_getElem.mp hmem
    have hk2 : k < ((appendTabSizes st 0 (lineWidths t f ln)).ts.take
        (lineWidths t f ln).length).length := hk
    have hkeq2 : ((appendTabSizes st 0 (lineWidths t f ln)).ts.take
        (lineWidths t f ln).length).getD k 0 = st.ts.getD c 0 := by
      rw [List.getD_eq_getElem _ _ hk2]
      exact hkeq
    have hkW : k < (lineWidths t f ln).length := by
      rw [hlen] at hk2
      exact hk2
    have hkts : k < st.ts.length := by omega
    obtain ⟨suf, hsuf, -⟩ := ats_ts_ext (lineWidths t f ln) st 0
    rw [getD_take_lt _ _ _ hkW, hsuf, List.getD_append _ _ _ _ hkts] at hkeq2
    have heq2 : st.ts[k] = st.ts[c] := by
      rw [← List.getD_eq_getElem _ 0 hkts, ← List.getD_eq_getElem _ 0 hc]
      exact hkeq2
    have := (h1.getElem_inj_iff).mp heq2
    omega
  · show (appendTabSizes st 0 (lineWidths t f ln)).val (st.ts.getD c 0) = _
    have := ats_val_at (lineWidths t f ln) st 0 c h1 h2 (Nat.zero_le c) hc
    simp only [Nat.sub_zero] at this
    rw [this, if_neg hcw]

theorem lineStep_birth (t : TabStops) (f : α → Nat) (st : BatchSt) (ln : List α) (c : Nat)
    (h2 : ∀ x ∈ st.ts, x < st.nextId)
    (hc : st.ts.length ≤ c) (hcW : c < colcount ln) :
    (batchLineStep t f st ln).1.ts.getD c 0 = st.nextId + (c - st.ts.length) ∧
    (batchLineStep t f st ln).1.val ((batchLineStep t f st ln).1.ts.getD c 0) =
      colWidth t f ln c := by
  have hcw : c < (lineWidths t f ln).length := by
    rw [lineWidths_length]
    exact hcW
  obtain ⟨g1, g2⟩ := ats_fresh (lineWidths t f ln) st 0 c (Nat.zero_le _) hc
    (by omega) h2
  simp only [Nat.sub_zero] at g2
  have hget : (batchLineStep t f st ln).1.ts.getD c 0 = st.nextId + (c - st.ts.length) := by
    show ((appendTabSizes st 0 (lineWidths t f ln)).ts.take
      (lineWidths t f ln).length).getD c 0 = _
    rw [getD_take_lt _ _ _ hcw]
    exact g1
  refine ⟨hget, ?_⟩
  rw [hget]
  show (appendTabSizes st 0 (lineWidths t f ln)).val (st.nextId + (c - st.ts.length)) = _
  rw [g2]
  rfl

theorem batchRun_frame (t : TabStops) (f : α → Nat) (eh : List Int) :
    ∀ (rest : List (List α)) (st : BatchSt) (id : Nat),
      id < st.nextId → id ∉ st.ts →
      (appendTabSizes (batchLines t f st rest).1 0 eh).val id = st.val id := by
  intro rest
  induction rest with
  | nil =>
    intro st id hlt hni
    rw [batchLines]
    apply ats_val_frame
    · exact hlt
    · intro k _ hk heq
      exact hni (heq ▸ getD_mem_of_lt _ _ hk)
  | cons ln rest ih =>
    intro st id hlt hni
    rw [batchLines]
    dsimp only
    have hval1 : (batchLineStep t f st ln).1.val id = st.val id := by
      show (appendTabSizes st 0 (lineWidths t f ln)).val id = st.val id
      apply ats_val_frame
      · exact hlt
      · intro k _ hk heq
        exact hni (heq ▸ getD_mem_of_lt _ _ hk)
    have hnext1 : st.nextId ≤ (batchLineStep t f st ln).1.nextId :=
      appendTabSizes_nextId_le _ 0 st
    have hni1 : id ∉ (batchLineStep t f st ln).1.ts := by
      intro hmem
      obtain ⟨suf, hsuf, hge⟩ := ats_ts_ext (lineWidths t f ln) st 0
      have hmem2 : id ∈ (appendTabSizes st 0 (lineWidths t f ln)).ts :=
        List.mem_of_mem_take hmem
      rw [hsuf] at hmem2
      rcases List.mem_append.mp hmem2 with h | h
      · exact hni h
      · have := hge id h
        omega
    have hrec := ih (batchLineStep t f st ln).1 id (lt_of_lt_of_le hlt hnext1) hni1
    rw [hrec, hval1]

theorem batchRun_box (t : TabStops) (f : α → Nat) (eh : List Int) :
    ∀ (rest : List (List α)) (st : BatchSt) (c : Nat),
      st.ts.Nodup → (∀ x ∈ st.ts, x < st.nextId) → c < st.ts.length →
      (appendTabSizes (batchLines t f st rest).1 0 eh).val (st.ts.getD c 0) =
        futureVal t f c eh rest (st.val (st.ts.getD c 0)) ∧
      ∀ k, k < chainLen c rest →
        ((batchLines t f st rest).2.getD k []).getD c 0 = st.ts.getD c 0 := by
  intro rest
  induction rest with
  | nil =>
    intro st c h1 h2 hc
    constructor
    · rw [batchLines, futureVal]
      have := ats_val_at eh st 0 c h1 h2 (Nat.zero_le c) hc
      simp only [Nat.sub_zero] at this
      exact this
    · intro k hk
      rw [chainLen] at hk
      omega
  | cons ln rest ih =>
    intro st c h1 h2 hc
    obtain ⟨hs1, hs2, hs3, hs4, hs5⟩ := lineStep_basic t f st ln h1 h2
    by_cases hcW : c < colcount ln
    · obtain ⟨hl1, hl2⟩ := lineStep_live t f st ln c h1 h2 hc hcW
      have hc1 : c < (batchLineStep t f st ln).1.ts.length := by
        rw [hs3]
        exact hcW
      obtain ⟨g1, g2⟩ := ih (batchLineStep t f st ln).1 c hs1 hs2 hc1
      rw [hl1] at g1 g2
      constructor
      · rw [batchLines]
        dsimp only
        rw [futureVal, if_pos hcW, g1, hl2]
      · intro k hk
        rw [chainLen, if_pos hcW] at hk
        rw [batchLines]
        dsimp only
        cases k with
        | zero =>
          rw [List.getD_cons_zero, hs4, hl1]
        | succ k =>
          rw [List.getD_cons_succ]
          exact g2 k (by omega)
    · obtain ⟨hd1, hd2⟩ := lineStep_dead t f st ln c h1 h2 hc hcW
      constructor
      · rw [batchLines]
        dsimp only
        rw [futureVal, if_neg hcW]
        have hid_lt : st.ts.getD c 0 < (batchLineStep t f st ln).1.nextId :=
          lt_of_lt_of_le (h2 _ (getD_mem_of_lt _ _ hc)) hs5
        have hrec := batchRun_frame t f eh rest (batchLineStep t f st ln).1
          (st.ts.getD c 0) hid_lt hd1
        rw [hrec, hd2]
      · intro k hk
        rw [chainLen, if_neg hcW] at hk
        omega


/-! ## Run structure: `runStart`, `chainLen`, and fold-max facts -/

theorem runStart_le (lines : List (List α)) (c : Nat) : ∀ i, runStart lines c i ≤ i := by
  intro i
  induction i with
  | zero => exact le_refl 0
  | succ m ih =>
    rw [runStart]
    by_cases h : c < colcount (lines.getD m [])
    · rw [if_pos h]
      omega
    · rw [if_neg h]

theorem runStart_run (lines : List (List α)) (c : Nat) :
    ∀ i k, runStart lines c i ≤ k → k < i → c < colcount (lines.getD k []) := by
  intro i
  induction i with
  | zero =>
    intro k h1 h2
    omega
  | succ m ih =>
    intro k h1 h2
    rw [runStart] at h1
    by_cases h : c < colcount (lines.getD m [])
    · rw [if_pos h] at h1
      by_cases hk : k = m
      · subst hk
        exact h
      · exact ih k h1 (by omega)
    · rw [if_neg h] at h1
      omega

theorem runStart_prev (lines : List (List α)) (c : Nat) :
    ∀ i, runStart lines c i = 0 ∨
      (0 < runStart lines c i ∧
        ¬ c < colcount (lines.getD (runStart lines c i - 1) [])) := by
  intro i
  induction i with
  | zero => exact Or.inl rfl
  | succ m ih =>
    rw [runStart]
    by_cases h : c < colcount (lines.getD m [])
    · rw [if_pos h]
      exact ih
    · rw [if_neg h]
      right
      refine ⟨by omega, ?_⟩
      have hm : m + 1 - 1 = m := by omega
      rw [hm]
      exact h

theorem runStart_congr (lines : List (List α)) (c : Nat) :
    ∀ j i, i ≤ j → (∀ k, i ≤ k → k < j → c < colcount (lines.getD k [])) →
      runStart lines c j = runStart lines c i := by
  intro j
  induction j with
  | zero =>
    intro i h1 _
    have h0 : i = 0 := by omega
    rw [h0]
  | succ m ih =>
    intro i h1 h2
    by_cases he : i = m + 1
    · rw [he]
    · have him : i ≤ m := by omega
      rw [runStart, if_pos (h2 m him (by omega))]
      exact ih i him (fun k hk1 hk2 => h2 k hk1 (by omega))

theorem chainLen_le_length (c : Nat) :
    ∀ rest : List (List α), chainLen c rest ≤ rest.length := by
  intro rest
  induction rest with
  | nil =>
    rw [chainLen]
    exact Nat.zero_le _
  | cons ln rest ih =>
    rw [chainLen]
    by_cases h : c < colcount ln
    · rw [if_pos h, List.length_cons]
      omega
    · rw [if_neg h]
      omega

theorem chainLen_run (c : Nat) : ∀ (rest : List (List α)) (k : Nat),
    k < chainLen c rest → c < colcount (rest.getD k []) := by
  intro rest
  induction rest with
  | nil =>
    intro k hk
    rw [chainLen] at hk
    omega
  | cons ln rest ih =>
    intro k hk
    rw [chainLen] at hk
    by_cases h : c < colcount ln
    · rw [if_pos h] at hk
      cases k with
      | zero =>
        rw [List.getD_cons_zero]
        exact h
      | succ k =>
        rw [List.getD_cons_succ]
        exact ih k (by omega)
    · rw [if_neg h] at hk
      omega

theorem chainLen_max (c : Nat) : ∀ rest : List (List α),
    chainLen c rest < rest.length →
    ¬ c < colcount (rest.getD (chainLen c rest) []) := by
  intro rest
  induction rest with
  | nil =>
    intro h
    rw [chainLen] at h
    simp at h
  | cons ln rest ih =>
    intro h
    rw [chainLen] at h ⊢
    by_cases hc : c < colcount ln
    · rw [if_pos hc] at h ⊢
      rw [List.getD_cons_succ]
      exact ih (by rw [List.length_cons] at h; omega)
    · rw [if_neg hc] at h ⊢
      rw [List.getD_cons_zero]
      exact hc

theorem chainLen_ge (c : Nat) : ∀ (rest : List (List α)) (m : Nat),
    m < rest.length → (∀ k, k ≤ m → c < colcount (rest.getD k [])) →
    m < chainLen c rest := by
  intro rest
  induction rest with
  | nil =>
    intro m hm _
    simp at hm
  | cons ln rest ih =>
    intro m hm hall
    have h0 : c < colcount ln := by
      have := hall 0 (Nat.zero_le m)
      rwa [List.getD_cons_zero] at this
    rw [chainLen, if_pos h0]
    cases m with
    | zero => omega
    | succ m =>
      have hrec := ih m (by rw [List.length_cons] at hm; omega)
        (fun k hk => by
          have := hall (k + 1) (by omega)
          rwa [List.getD_cons_succ] at this)
      omega

theorem chainLen_cons_pos {c : Nat} {ln : List α} (rest : List (List α))
    (h : c < colcount ln) : chainLen c (ln :: rest) = chainLen c rest + 1 := by
  rw [chainLen, if_pos h]

theorem le_foldlMax_self : ∀ (l : List Int) (v : Int), v ≤ l.foldl max v := by
  intro l
  induction l with
  | nil =>
    intro v
    exact le_refl v
  | cons x l ih =>
    intro v
    rw [List.foldl_cons]
    exact le_trans (le_max_left v x) (ih (max v x))

theorem le_foldlMax_mem : ∀ (l : List Int) (v y : Int), y ∈ l → y ≤ l.foldl max v := by
  intro l
  induction l with
  | nil =>
    intro v y hy
    simp at hy
  | cons x l ih =>
    intro v y hy
    rw [List.foldl_cons]
    rcases List.mem_cons.mp hy with h | h
    · subst h
      exact le_trans (le_max_right v y) (le_foldlMax_self l _)
    · exact ih _ y h

theorem foldlMax_le : ∀ (l : List Int) (v x : Int), v ≤ x → (∀ y ∈ l, y ≤ x) →
    l.foldl max v ≤ x := by
  intro l
  induction l with
  | nil =>
    intro v x h _
    exact h
  | cons z l ih =>
    intro v x h hall
    rw [List.foldl_cons]
    exact ih _ x (max_le h (hall z (List.mem_cons_self _ _)))
      (fun y hy => hall y (List.mem_cons_of_mem _ hy))

theorem futureVal_spec (t : TabStops) (f : α → Nat) (c : Nat) (eh : List Int) :
    ∀ (rest : List (List α)) (v : Int),
      futureVal t f c eh rest v =
        ((rest.take (chainLen c rest)).map (fun ln => colWidth t f ln c) ++
          (if chainLen c rest = rest.length ∧ c < eh.length
            then [eh.getD c 0] else [])).foldl max v := by
  intro rest
  induction rest with
  | nil =>
    intro v
    rw [futureVal, chainLen]
    simp only [List.take_nil, List.map_nil, List.nil_append, List.length_nil]
    by_cases h : c < eh.length
    · rw [if_pos h, if_pos (show True ∧ c < eh.length from ⟨trivial, h⟩),
        List.foldl_cons, List.foldl_nil]
    · rw [if_neg h, if_neg (fun hand => h hand.2), List.foldl_nil]
  | cons ln rest ih =>
    intro v
    rw [futureVal]
    by_cases h : c < colcount ln
    · rw [if_pos h, chainLen_cons_pos rest h, ih]
      simp only [List.take_succ_cons, List.map_cons, List.cons_append, List.foldl_cons,
        List.length_cons]
      have hcond : (chainLen c rest + 1 = rest.length + 1) = (chainLen c rest = rest.length) :=
        propext (by omega)
      simp only [hcond]
    · rw [if_neg h, chainLen, if_neg h]
      simp only [List.take_zero, List.map_nil, List.nil_append, List.length_cons]
      rw [if_neg (fun hand => by have h1 := hand.1; have h2 := chainLen_le_length c rest; omega),
        List.foldl_nil]


/-! ## Bridging `runFinalMax` with the machine box value -/

theorem getD_take_of_lt {β : Type} (l : List β) (d : β) (n k : Nat) (h : k < n) :
    (l.take n).getD k d = l.getD k d := by
  rw [List.getD_eq_getElem?_getD, List.getD_eq_getElem?_getD, List.getElem?_take, if_pos h]

theorem getD_mem_take {β : Type} (l : List β) (d : β) (n k : Nat) (hk : k < n)
    (hl : k < l.length) : l.getD k d ∈ l.take n := by
  have h1 : k < (l.take n).length := by
    rw [List.length_take]
    omega
  have h2 : (l.take n)[k] = l[k] := List.getElem_take _
  rw [List.getD_eq_getElem _ _ hl, ← h2]
  exact List.getElem_mem h1

theorem getD_range_lt (n c : Nat) (h : c < n) : (List.range n).getD c 0 = c := by
  rw [List.getD_eq_getElem?_getD, List.getElem?_range h]
  rfl

theorem foldlMax_cons_eq (w v : Int) (l : List Int) (hw : w = v ∨ w ∈ l) :
    (v :: l).foldl max w = l.foldl max v := by
  rw [List.foldl_cons]
  apply le_antisymm
  · apply foldlMax_le
    · apply max_le
      · rcases hw with h | h
        · rw [h]
          exact le_foldlMax_self _ _
        · exact le_foldlMax_mem _ _ _ h
      · exact le_foldlMax_self _ _
    · intro y hy
      exact le_foldlMax_mem _ _ y hy
  · apply foldlMax_le
    · exact le_trans (le_max_right _ _) (le_foldlMax_self _ _)
    · intro y hy
      exact le_foldlMax_mem _ _ y hy

theorem runFinalMax_eq_futureVal_start (lines : List (List α)) (t : TabStops)
    (f : α → Nat) (sh eh : List Int) (c i : Nat)
    (ha0 : runStart lines c i = 0) (hcsh : c < sh.length)
    (hi : i < lines.length) (hilen : i < chainLen c lines) :
    runFinalMax lines t f sh eh c i = futureVal t f c eh lines (sh.getD c 0) := by
  rw [futureVal_spec]
  unfold runFinalMax
  rw [ha0]
  dsimp only
  rw [List.drop_zero]
  have h00 : (0 = 0 ∧ c < sh.length) := ⟨rfl, hcsh⟩
  rw [if_pos h00]
  have hz : 0 + chainLen c lines = chainLen c lines := Nat.zero_add _
  rw [hz]
  have hwmem : colWidth t f (lines.getD i []) c ∈
      (lines.take (chainLen c lines)).map (fun ln => colWidth t f ln c) :=
    List.mem_map_of_mem _ (getD_mem_take lines [] (chainLen c lines) i hilen hi)
  by_cases hend : chainLen c lines = lines.length ∧ c < eh.length
  · rw [if_pos hend, if_pos hend, List.cons_append]
    exact foldlMax_cons_eq _ _ _ (Or.inr (List.mem_append_left _ hwmem))
  · rw [if_neg hend, if_neg hend, List.append_nil]
    exact foldlMax_cons_eq _ _ _ (Or.inr hwmem)

theorem runFinalMax_eq_futureVal_mid (lines : List (List α)) (t : TabStops)
    (f : α → Nat) (sh eh : List Int) (c i : Nat)
    (hnot : ¬ (runStart lines c i = 0 ∧ c < sh.length))
    (ha_le : runStart lines c i ≤ i) (hi : i < lines.length)
    (hca : c < colcount (lines.getD (runStart lines c i) []))
    (hilen : i - runStart lines c i < chainLen c (lines.drop (runStart lines c i))) :
    runFinalMax lines t f sh eh c i =
      futureVal t f c eh (lines.drop (runStart lines c i + 1))
        (colWidth t f (lines.getD (runStart lines c i) []) c) := by
  have halines : runStart lines c i < lines.length := lt_of_le_of_lt ha_le hi
  have hd1 : lines.drop (runStart lines c i) =
      lines.getD (runStart lines c i) [] :: lines.drop (runStart lines c i + 1) := by
    rw [List.getD_eq_getElem _ _ halines]
    exact List.drop_eq_getElem_cons halines
  rw [futureVal_spec]
  unfold runFinalMax
  dsimp only
  rw [if_neg hnot, hd1, chainLen_cons_pos _ hca, List.take_succ_cons, List.map_cons]
  have hdl : (lines.drop (runStart lines c i + 1)).length =
      lines.length - (runStart lines c i + 1) := List.length_drop _ _
  have hcondeq : (runStart lines c i + (chainLen c (lines.drop (runStart lines c i + 1)) + 1)
        = lines.length ∧ c < eh.length)
      = (chainLen c (lines.drop (runStart lines c i + 1))
        = (lines.drop (runStart lines c i + 1)).length ∧ c < eh.length) := by
    apply propext
    rw [hdl]
    constructor
    · rintro ⟨h1, h2⟩
      exact ⟨by omega, h2⟩
    · rintro ⟨h1, h2⟩
      exact ⟨by omega, h2⟩
  simp only [hcondeq]
  have hwm : i ≠ runStart lines c i → colWidth t f (lines.getD i []) c ∈
      ((lines.drop (runStart lines c i + 1)).take
        (chainLen c (lines.drop (runStart lines c i + 1)))).map
          (fun ln => colWidth t f ln c) := by
    intro hia
    apply List.mem_map_of_mem
    have hidx : lines.getD i [] =
        (lines.drop (runStart lines c i + 1)).getD (i - runStart lines c i - 1) [] := by
      rw [getD_drop_add]
      congr 1
      omega
    rw [hidx]
    apply getD_mem_take
    · rw [hd1, chainLen_cons_pos _ hca] at hilen
      omega
    · rw [hdl]
      omega
  by_cases hend : chainLen c (lines.drop (runStart lines c i + 1))
      = (lines.drop (runStart lines c i + 1)).length ∧ c < eh.length
  · rw [if_pos hend, if_pos hend, List.cons_append]
    apply foldlMax_cons_eq
    by_cases hia : i = runStart lines c i
    · left
      rw [← hia]
    · exact Or.inr (List.mem_append_left _ (hwm hia))
  · rw [if_neg hend, if_neg hend, List.append_nil]
    apply foldlMax_cons_eq
    by_cases hia : i = runStart lines c i
    · left
      rw [← hia]
    · exact Or.inr (hwm hia)


/-! ## Assembling the whole run -/

theorem batchLines_append (t : TabStops) (f : α → Nat) :
    ∀ (l1 l2 : List (List α)) (st : BatchSt),
      batchLines t f st (l1 ++ l2) =
        ((batchLines t f (batchLines t f st l1).1 l2).1,
          (batchLines t f st l1).2 ++ (batchLines t f (batchLines t f st l1).1 l2).2) := by
  intro l1
  induction l1 with
  | nil =>
    intro l2 st
    rfl
  | cons ln rest ih =>
    intro l2 st
    show batchLines t f st (ln :: (rest ++ l2)) = _
    rw [batchLines, batchLines]
    dsimp only
    rw [ih]
    rfl

theorem batchLines_facts (t : TabStops) (f : α → Nat) :
    ∀ (ls : List (List α)) (st : BatchSt),
      st.ts.Nodup → (∀ x ∈ st.ts, x < st.nextId) →
      (batchLines t f st ls).1.ts.Nodup ∧
      (∀ x ∈ (batchLines t f st ls).1.ts, x < (batchLines t f st ls).1.nextId) ∧
      (batchLines t f st ls).2.length = ls.length ∧
      (∀ k, k < ls.length →
        ((batchLines t f st ls).2.getD k []).length = colcount (ls.getD k [])) ∧
      (ls ≠ [] → (batchLines t f st ls).1.ts.length = colcount (ls.getD (ls.length - 1) [])) := by
  intro ls
  induction ls with
  | nil =>
    intro st h1 h2
    refine ⟨h1, h2, rfl, ?_, ?_⟩
    · intro k hk
      simp at hk
    · intro h
      exact absurd rfl h
  | cons ln rest ih =>
    intro st h1 h2
    obtain ⟨hs1, hs2, hs3, hs4, hs5⟩ := lineStep_basic t f st ln h1 h2
    obtain ⟨g1, g2, g3, g4, g5⟩ := ih (batchLineStep t f st ln).1 hs1 hs2
    rw [batchLines]
    dsimp only
    refine ⟨g1, g2, ?_, ?_, ?_⟩
    · rw [List.length_cons, g3, List.length_cons]
    · intro k hk
      cases k with
      | zero =>
        rw [List.getD_cons_zero, List.getD_cons_zero, hs4, hs3]
      | succ k =>
        rw [List.getD_cons_succ, List.getD_cons_succ]
        exact g4 k (by rw [List.length_cons] at hk; omega)
    · intro _
      cases rest with
      | nil =>
        show (batchLineStep t f st ln).1.ts.length = _
        rw [hs3]
        rfl
      | cons ln2 rest2 =>
        have hne : (ln2 :: rest2) ≠ ([] : List (List α)) := by
          intro h
          exact List.noConfusion h
        have hlast := g5 hne
        rw [hlast]
        have hidx : (ln :: ln2 :: rest2).length - 1 = ((ln2 :: rest2).length - 1) + 1 := by
          simp only [List.length_cons]
          omega
        rw [hidx, List.getD_cons_succ]


theorem batchRun_box_birth (t : TabStops) (f : α → Nat) (eh : List Int)
    (st : BatchSt) (ln : List α) (rest : List (List α)) (c : Nat)
    (hnd : st.ts.Nodup) (hb : ∀ x ∈ st.ts, x < st.nextId)
    (hsmall : st.ts.length ≤ c) (hca : c < colcount ln) :
    (appendTabSizes (batchLines t f st (ln :: rest)).1 0 eh).val
        ((batchLineStep t f st ln).1.ts.getD c 0) =
      futureVal t f c eh rest (colWidth t f ln c) ∧
    ∀ k, k < chainLen c (ln :: rest) →
      ((batchLines t f st (ln :: rest)).2.getD k []).getD c 0 =
        (batchLineStep t f st ln).1.ts.getD c 0 := by
  obtain ⟨hb1, hb2⟩ := lineStep_birth t f st ln c hb hsmall hca
  obtain ⟨hsA, hsB, hsC, hsD, hsE⟩ := lineStep_basic t f st ln hnd hb
  have hc1 : c < (batchLineStep t f st ln).1.ts.length := by
    rw [hsC]
    exact hca
  obtain ⟨hval, hrows⟩ := batchRun_box t f eh rest (batchLineStep t f st ln).1 c hsA hsB hc1
  constructor
  · rw [batchLines]
    dsimp only
    rw [hval, hb2]
  · intro k hk
    rw [chainLen, if_pos hca] at hk
    rw [batchLines]
    dsimp only
    cases k with
    | zero =>
      rw [List.getD_cons_zero, hsD]
    | succ k =>
      rw [List.getD_cons_succ]
      exact hrows k (by omega)

theorem batch_key (lines : List (List α)) (t : TabStops) (f : α → Nat)
    (sh eh : List Int) (c i : Nat)
    (hi : i < lines.length) (hci : c < colcount (lines.getD i [])) :
    ((iter_tab_sizes lines t f sh eh).getD i []).getD c 0 =
      runFinalMax lines t f sh eh c i := by
  have h0nd : (batchInit sh).ts.Nodup := List.nodup_range _
  have h0b : ∀ x ∈ (batchInit sh).ts, x < (batchInit sh).nextId := by
    intro x hx
    exact List.mem_range.mp hx
  have ha_le : runStart lines c i ≤ i := runStart_le lines c i
  have hrun : ∀ k, runStart lines c i ≤ k → k ≤ i → c < colcount (lines.getD k []) := by
    intro k h1 h2
    rcases Nat.lt_or_ge k i with h | h
    · exact runStart_run lines c i k h1 h
    · have hk : k = i := by omega
      rw [hk]
      exact hci
  have hdroplen : (lines.drop (runStart lines c i)).length
      = lines.length - runStart lines c i := List.length_drop _ _
  have hilen : i - runStart lines c i < chainLen c (lines.drop (runStart lines c i)) := by
    apply chainLen_ge
    · omega
    · intro k hk
      rw [getD_drop_add]
      exact hrun _ (by omega) (by omega)
  obtain ⟨-, -, hF3, hF4, -⟩ := batchLines_facts t f lines (batchInit sh) h0nd h0b
  have hrowlen : ((batchLines t f (batchInit sh) lines).2.getD i []).length
      = colcount (lines.getD i []) := hF4 i hi
  have hout : iter_tab_sizes lines t f sh eh
      = (batchLines t f (batchInit sh) lines).2.map (fun ids => ids.map
          (appendTabSizes (batchLines t f (batchInit sh) lines).1 0 eh).val) := rfl
  have hgi : (iter_tab_sizes lines t f sh eh).getD i []
      = ((batchLines t f (batchInit sh) lines).2.getD i []).map
          (appendTabSizes (batchLines t f (batchInit sh) lines).1 0 eh).val := by
    rw [hout]
    rw [List.getD_eq_getElem _ _ (by rw [List.length_map, hF3]; exact hi),
        List.getD_eq_getElem _ _ (by rw [hF3]; exact hi)]
    exact List.getElem_map _
  have hc2 : c < ((batchLines t f (batchInit sh) lines).2.getD i []).length := by
    rw [hrowlen]
    exact hci
  have hgc : (((batchLines t f (batchInit sh) lines).2.getD i []).map
        (appendTabSizes (batchLines t f (batchInit sh) lines).1 0 eh).val).getD c 0
      = (appendTabSizes (batchLines t f (batchInit sh) lines).1 0 eh).val
          (((batchLines t f (batchInit sh) lines).2.getD i []).getD c 0) := by
    rw [List.getD_eq_getElem _ _ (by rw [List.length_map]; exact hc2)]
    rw [List.getElem_map]
    rw [List.getD_eq_getElem _ _ hc2]
  rw [hgi, hgc]
  by_cases hA : runStart lines c i = 0 ∧ c < sh.length
  · obtain ⟨ha0, hcsh⟩ := hA
    have hc0 : c < (batchInit sh).ts.length := by
      show c < (List.range sh.length).length
      rw [List.length_range]
      exact hcsh
    obtain ⟨hval, hrows⟩ := batchRun_box t f eh lines (batchInit sh) c h0nd h0b hc0
    have hilen0 : i < chainLen c lines := by
      rw [ha0, List.drop_zero] at hilen
      omega
    rw [hrows i hilen0, hval]
    have hid : (batchInit sh).ts.getD c 0 = c := getD_range_lt _ _ hcsh
    rw [hid]
    have hv0 : (batchInit sh).val c = sh.getD c 0 := rfl
    rw [hv0]
    exact (runFinalMax_eq_futureVal_start lines t f sh eh c i ha0 hcsh hi hilen0).symm
  · have halines : runStart lines c i < lines.length := by omega
    have hca : c < colcount (lines.getD (runStart lines c i) []) :=
      hrun _ (le_refl _) ha_le
    obtain ⟨ga1, ga2, ga3, -, ga5⟩ := batchLines_facts t f
      (lines.take (runStart lines c i)) (batchInit sh) h0nd h0b
    have hlen_take : (lines.take (runStart lines c i)).length = runStart lines c i := by
      rw [List.length_take]
      omega
    have hsmall : (batchLines t f (batchInit sh)
        (lines.take (runStart lines c i))).1.ts.length ≤ c := by
      rcases runStart_prev lines c i with h | ⟨hpos, hprev⟩
      · have hnsh : ¬ c < sh.length := fun hcl => hA ⟨h, hcl⟩
        rw [h]
        show (batchInit sh).ts.length ≤ c
        show (List.range sh.length).length ≤ c
        rw [List.length_range]
        omega
      · have htake_ne : lines.take (runStart lines c i) ≠ [] := by
          intro hemp
          have hlen0 := congrArg List.length hemp
          rw [hlen_take] at hlen0
          simp at hlen0
          omega
        have hlast := ga5 htake_ne
        rw [hlast, hlen_take]
        have hgd : (lines.take (runStart lines c i)).getD (runStart lines c i - 1) []
            = lines.getD (runStart lines c i - 1) [] :=
          getD_take_of_lt _ _ _ _ (by omega)
        rw [hgd]
        omega
    have hd1 : lines.drop (runStart lines c i) =
        lines.getD (runStart lines c i) [] :: lines.drop (runStart lines c i + 1) := by
      rw [List.getD_eq_getElem _ _ halines]
      exact List.drop_eq_getElem_cons halines
    obtain ⟨hval, hrows⟩ := batchRun_box_birth t f eh
      (batchLines t f (batchInit sh) (lines.take (runStart lines c i))).1
      (lines.getD (runStart lines c i) []) (lines.drop (runStart lines c i + 1)) c
      ga1 ga2 hsmall hca
    have hsplit2 : lines.take (runStart lines c i) ++
        (lines.getD (runStart lines c i) [] :: lines.drop (runStart lines c i + 1))
        = lines := by
      rw [← hd1]
      exact List.take_append_drop _ _
    have hP : batchLines t f (batchInit sh) lines
        = ((batchLines t f (batchLines t f (batchInit sh)
              (lines.take (runStart lines c i))).1
              (lines.getD (runStart lines c i) [] ::
                lines.drop (runStart lines c i + 1))).1,
           (batchLines t f (batchInit sh) (lines.take (runStart lines c i))).2 ++
            (batchLines t f (batchLines t f (batchInit sh)
              (lines.take (runStart lines c i))).1
              (lines.getD (runStart lines c i) [] ::
                lines.drop (runStart lines c i + 1))).2) := by
      conv_lhs => rw [← hsplit2]
      exact batchLines_append t f _ _ _
    rw [hP]
    dsimp only
    have hpreLen : (batchLines t f (batchInit sh)
        (lines.take (runStart lines c i))).2.length = runStart lines c i := by
      rw [ga3, hlen_take]
    rw [List.getD_append_right _ _ _ _ (by rw [hpreLen]; exact ha_le), hpreLen]
    have hilen2 : i - runStart lines c i < chainLen c
        (lines.getD (runStart lines c i) [] :: lines.drop (runStart lines c i + 1)) := by
      rw [← hd1]
      exact hilen
    rw [hrows (i - runStart lines c i) hilen2, hval]
    exact (runFinalMax_eq_futureVal_mid lines t f sh eh c i hA ha_le hi hca hilen).symm


/-- **C7.**  In the batch algorithm `iter_tab_sizes`, for any input lines,
policy and hints: two lines of the same run of column `c` (contiguous
lines, each with column count above `c`) report equal widths at `c`, and
that width is the final maximum of the run's policy widths together with
the applicable hints (the start hint when the run starts at line 0, the
end hint when it ends at the last line) — the value reached by the end
of the run, not the running maximum when the earlier line was scanned. -/
theorem C7_same_run_reports_final_max (lines : List (List α)) (t : TabStops)
    (f : α → Nat) (sh eh : List Int) (c i j : Nat)
    (hrun : sameRun lines c i j) :
    ((iter_tab_sizes lines t f sh eh).getD i []).getD c 0 =
      ((iter_tab_sizes lines t f sh eh).getD j []).getD c 0 ∧
    ((iter_tab_sizes lines t f sh eh).getD i []).getD c 0 =
      runFinalMax lines t f sh eh c i := by
  obtain ⟨hi, hj, hall⟩ := hrun
  have hci : c < colcount (lines.getD i []) := by
    apply hall i
    · apply List.mem_range.mpr
      have := le_max_left i j
      omega
    · exact min_le_left i j
  have hcj : c < colcount (lines.getD j []) := by
    apply hall j
    · apply List.mem_range.mpr
      have := le_max_right i j
      omega
    · exact min_le_right i j
  have hkey_i := batch_key lines t f sh eh c i hi hci
  have hkey_j := batch_key lines t f sh eh c j hj hcj
  have hstart : runStart lines c i = runStart lines c j := by
    rcases le_total i j with h | h
    · refine (runStart_congr lines c j i h (fun k hk1 hk2 => ?_)).symm
      apply hall k
      · apply List.mem_range.mpr
        have := le_max_right i j
        omega
      · have := min_le_left i j
        omega
    · refine runStart_congr lines c i j h (fun k hk1 hk2 => ?_)
      apply hall k
      · apply List.mem_range.mpr
        have := le_max_left i j
        omega
      · have := min_le_right i j
        omega
  have hrun_i : ∀ k, runStart lines c i ≤ k → k ≤ i → c < colcount (lines.getD k []) := by
    intro k h1 h2
    rcases Nat.lt_or_ge k i with h | h
    · exact runStart_run lines c i k h1 h
    · have hk : k = i := by omega
      rw [hk]
      exact hci
  have hrun_j : ∀ k, runStart lines c j ≤ k → k ≤ j → c < colcount (lines.getD k []) := by
    intro k h1 h2
    rcases Nat.lt_or_ge k j with h | h
    · exact runStart_run lines c j k h1 h
    · have hk : k = j := by omega
      rw [hk]
      exact hcj
  have hale_i : runStart lines c i ≤ i := runStart_le lines c i
  have hale_j : runStart lines c j ≤ j := runStart_le lines c j
  have hilen_i : i - runStart lines c i < chainLen c (lines.drop (runStart lines c i)) := by
    apply chainLen_ge
    · rw [List.length_drop]
      omega
    · intro k hk
      rw [getD_drop_add]
      exact hrun_i _ (by omega) (by omega)
  have hilen_j : j - runStart lines c j < chainLen c (lines.drop (runStart lines c j)) := by
    apply chainLen_ge
    · rw [List.length_drop]
      omega
    · intro k hk
      rw [getD_drop_add]
      exact hrun_j _ (by omega) (by omega)
  have hrfm : runFinalMax lines t f sh eh c i = runFinalMax lines t f sh eh c j := by
    by_cases hA : runStart lines c i = 0 ∧ c < sh.length
    · have hA_j : runStart lines c j = 0 ∧ c < sh.length := by
        rw [← hstart]
        exact hA
      have hilen0_i : i < chainLen c lines := by
        rw [hA.1, List.drop_zero] at hilen_i
        omega
      have hilen0_j : j < chainLen c lines := by
        rw [hA_j.1, List.drop_zero] at hilen_j
        omega
      rw [runFinalMax_eq_futureVal_start lines t f sh eh c i hA.1 hA.2 hi hilen0_i,
          runFinalMax_eq_futureVal_start lines t f sh eh c j hA_j.1 hA_j.2 hj hilen0_j]
    · have hA_j : ¬ (runStart lines c j = 0 ∧ c < sh.length) := by
        rw [← hstart]
        exact hA
      have hca_i : c < colcount (lines.getD (runStart lines c i) []) :=
        hrun_i _ (le_refl _) hale_i
      have hca_j : c < colcount (lines.getD (runStart lines c j) []) :=
        hrun_j _ (le_refl _) hale_j
      rw [runFinalMax_eq_futureVal_mid lines t f sh eh c i hA hale_i hi hca_i hilen_i,
          runFinalMax_eq_futureVal_mid lines t f sh eh c j hA_j hale_j hj hca_j hilen_j,
          hstart]
  exact ⟨hkey_i.trans (hrfm.trans hkey_j.symm), hkey_i⟩

theorem C7_same_run_reports_final_max_witness :
    sameRun ([[2, 0], [4, 0]] : List (List Nat)) 0 0 1 ∧
    ((((iter_tab_sizes ([[2, 0], [4, 0]] : List (List Nat)) ⟨1, 1, 1⟩ id [] []).getD 0 []).getD 0 0 =
        ((iter_tab_sizes ([[2, 0], [4, 0]] : List (List Nat)) ⟨1, 1, 1⟩ id [] []).getD 1 []).getD 0 0) ∧
      ((iter_tab_sizes ([[2, 0], [4, 0]] : List (List Nat)) ⟨1, 1, 1⟩ id [] []).getD 0 []).getD 0 0 =
        runFinalMax ([[2, 0], [4, 0]] : List (List Nat)) ⟨1, 1, 1⟩ id [] [] 0 0) :=
  ⟨by decide,
    C7_same_run_reports_final_max ([[2, 0], [4, 0]] : List (List Nat)) ⟨1, 1, 1⟩ id [] [] 0 0 1
      (by decide)⟩

/-! ## Claim C10: statelessness of the batch function -/

/-! ## Simulation of the pure batch machine by the store-passing run -/

theorem ulm_rel (N : Nat) (σ : Store) (b : BatchSt) (id : Nat) (w : Int)
    (hrel : StoreRel N σ b) (hid : id < b.nextId) :
    StoreRel N (σ.update_list_max (N + id) w) (boxUpdateMax b id w) := by
  obtain ⟨h1, h2⟩ := hrel
  refine ⟨h1, ?_⟩
  intro k hk
  show (if N + k = N + id
      then (σ.lists (N + id)).set 0 (max ((σ.lists (N + id)).getD 0 0) w)
      else σ.lists (N + k)) = [(boxUpdateMax b id w).val k]
  by_cases hkid : k = id
  · subst hkid
    rw [if_pos rfl, h2 k hk]
    show [max (([b.val k].getD 0 0)) w] = [if k = k then max (b.val k) w else b.val k]
    rw [if_pos rfl, List.getD_cons_zero]
  · rw [if_neg (by omega), h2 k hk]
    show [b.val k] = [if k = id then max (b.val k) w else b.val k]
    rw [if_neg hkid]

theorem ulm_frame (σ : Store) (u : Nat) (w : Int) (r : Nat) (hr : r ≠ u) :
    (σ.update_list_max u w).lists r = σ.lists r := by
  show (if r = u then _ else σ.lists r) = σ.lists r
  rw [if_neg hr]

theorem box_rel (N : Nat) (σ : Store) (b : BatchSt) (w : Int)
    (hrel : StoreRel N σ b) :
    StoreRel N (σ.box w).1 (boxAlloc b w) := by
  obtain ⟨h1, h2⟩ := hrel
  constructor
  · show σ.next + 1 = N + (b.nextId + 1)
    omega
  · intro k hk
    have hk1 : k < b.nextId + 1 := hk
    show (if N + k = σ.next then [w] else σ.lists (N + k)) = [(boxAlloc b w).val k]
    by_cases hkid : k = b.nextId
    · subst hkid
      rw [if_pos (by omega)]
      show [w] = [if b.nextId = b.nextId then w else b.val b.nextId]
      rw [if_pos rfl]
    · have hk2 : k < b.nextId := by omega
      rw [if_neg (by omega), h2 k hk2]
      show [b.val k] = [if k = b.nextId then w else b.val k]
      rw [if_neg hkid]

theorem box_frame (σ : Store) (w : Int) (r : Nat) (hr : r < σ.next) :
    (σ.box w).1.lists r = σ.lists r := by
  show (if r = σ.next then [w] else σ.lists r) = σ.lists r
  rw [if_neg (by omega)]

theorem sats_sim (N : Nat) (ws : List Int) :
    ∀ (σ : Store) (b : BatchSt) (col : Nat),
      StoreRel N σ b → (∀ x ∈ b.ts, x < b.nextId) →
      StoreRel N (storeAppendTabSizes σ (b.ts.map (fun x => N + x)) col ws).1
          (appendTabSizes b col ws) ∧
      (storeAppendTabSizes σ (b.ts.map (fun x => N + x)) col ws).2 =
        (appendTabSizes b col ws).ts.map (fun x => N + x) ∧
      (∀ r, r < N →
        (storeAppendTabSizes σ (b.ts.map (fun x => N + x)) col ws).1.lists r
          = σ.lists r) := by
  induction ws with
  | nil =>
    intro σ b col hrel hb
    exact ⟨hrel, rfl, fun r hr => rfl⟩
  | cons w ws ih =>
    intro σ b col hrel hb
    rw [storeAppendTabSizes, appendTabSizes]
    by_cases hc : col < b.ts.length
    · have hc2 : col < (b.ts.map (fun x => N + x)).length := by
        rw [List.length_map]
        exact hc
      rw [dif_pos hc2, dif_pos hc]
      have hget : (b.ts.map (fun x => N + x)).get ⟨col, hc2⟩
          = N + b.ts.get ⟨col, hc⟩ := by
        simp
      rw [hget]
      have hid : b.ts.get ⟨col, hc⟩ < b.nextId :=
        hb _ (List.getElem_mem hc)
      have hrel2 := ulm_rel N σ b (b.ts.get ⟨col, hc⟩) w hrel hid
      obtain ⟨g1, g2, g3⟩ := ih (σ.update_list_max (N + b.ts.get ⟨col, hc⟩) w)
        (boxUpdateMax b (b.ts.get ⟨col, hc⟩) w) (col + 1) hrel2 hb
      have hts2 : (boxUpdateMax b (b.ts.get ⟨col, hc⟩) w).ts = b.ts := rfl
      rw [hts2] at g1 g2 g3
      refine ⟨g1, g2, ?_⟩
      intro r hr
      rw [g3 r hr]
      apply ulm_frame
      omega
    · have hc2 : ¬ col < (b.ts.map (fun x => N + x)).length := by
        rw [List.length_map]
        exact hc
      rw [dif_neg hc2, dif_neg hc]
      dsimp only
      have hnext : (σ.box w).2 = σ.next := rfl
      have hts : b.ts.map (fun x => N + x) ++ [(σ.box w).2]
          = (boxAlloc b w).ts.map (fun x => N + x) := by
        show b.ts.map (fun x => N + x) ++ [σ.next]
          = (b.ts ++ [b.nextId]).map (fun x => N + x)
        rw [List.map_append]
        obtain ⟨h1, -⟩ := hrel
        rw [h1]
        rfl
      have hrel2 := box_rel N σ b w hrel
      have hb2 : ∀ x ∈ (boxAlloc b w).ts, x < (boxAlloc b w).nextId := by
        intro x hx
        simp only [boxAlloc] at hx ⊢
        rcases List.mem_append.mp hx with h1 | h1
        · exact lt_trans (hb x h1) (Nat.lt_succ_self _)
        · simp at h1
          omega
      obtain ⟨g1, g2, g3⟩ := ih (σ.box w).1 (boxAlloc b w) (col + 1) hrel2 hb2
      rw [hts]
      refine ⟨g1, g2, ?_⟩
      intro r hr
      rw [g3 r hr]
      apply box_frame
      obtain ⟨h1, -⟩ := hrel
      omega


theorem storeLines_sim (t : TabStops) (f : α → Nat) (N : Nat) (ls : List (List α)) :
    ∀ (σ : Store) (b : BatchSt),
      StoreRel N σ b → (∀ x ∈ b.ts, x < b.nextId) →
      StoreRel N (storeLines t f σ (b.ts.map (fun x => N + x)) ls).1
          (batchLines t f b ls).1 ∧
      (storeLines t f σ (b.ts.map (fun x => N + x)) ls).2.1 =
        (batchLines t f b ls).1.ts.map (fun x => N + x) ∧
      (storeLines t f σ (b.ts.map (fun x => N + x)) ls).2.2 =
        (batchLines t f b ls).2.map (fun row => row.map (fun x => N + x)) ∧
      (∀ r, r < N → (storeLines t f σ (b.ts.map (fun x => N + x)) ls).1.lists r
        = σ.lists r) := by
  induction ls with
  | nil =>
    intro σ b hrel hb
    exact ⟨hrel, rfl, rfl, fun r hr => rfl⟩
  | cons ln rest ih =>
    intro σ b hrel hb
    obtain ⟨s1, s2, s3⟩ := sats_sim N (lineWidths t f ln) σ b 0 hrel hb
    have hb1 : ∀ x ∈ (batchLineStep t f b ln).1.ts, x < (batchLineStep t f b ln).1.nextId := by
      intro x hx
      exact (ats_bound _ b 0 hb).1 x (List.mem_of_mem_take hx)
    rw [storeLines, batchLines]
    dsimp only [storeLineStep, batchLineStep]
    have hT1 : (storeAppendTabSizes σ (b.ts.map (fun x => N + x)) 0
          (lineWidths t f ln)).2.take (lineWidths t f ln).length
        = (batchLineStep t f b ln).1.ts.map (fun x => N + x) := by
      rw [s2]
      show _ = ((appendTabSizes b 0 (lineWidths t f ln)).ts.take
        (lineWidths t f ln).length).map (fun x => N + x)
      rw [List.map_take]
    rw [hT1]
    obtain ⟨g1, g2, g3, g4⟩ := ih
      (storeAppendTabSizes σ (b.ts.map (fun x => N + x)) 0 (lineWidths t f ln)).1
      (batchLineStep t f b ln).1 s1 hb1
    refine ⟨g1, g2, ?_, ?_⟩
    · rw [List.map_cons, g3]
      rfl
    · intro r hr
      rw [g4 r hr]
      exact s3 r hr

theorem range_map_shift (a n : Nat) :
    (List.range (n + 1)).map (fun k => a + k)
      = a :: (List.range n).map (fun k => a + 1 + k) := by
  rw [List.range_succ_eq_map, List.map_cons, List.map_map]
  have htail : (List.range n).map ((fun k => a + k) ∘ Nat.succ)
      = (List.range n).map (fun k => a + 1 + k) := by
    apply List.map_congr_left
    intro m _
    show a + Nat.succ m = a + 1 + m
    omega
  rw [htail]
  congr 1

theorem boxAll_spec :
    ∀ (vs : List Int) (σ : Store),
      (boxAll σ vs).1.next = σ.next + vs.length ∧
      (boxAll σ vs).2 = (List.range vs.length).map (fun k => σ.next + k) ∧
      (∀ r, r < σ.next → (boxAll σ vs).1.lists r = σ.lists r) ∧
      (∀ k, k < vs.length → (boxAll σ vs).1.lists (σ.next + k) = [vs.getD k 0]) := by
  intro vs
  induction vs with
  | nil =>
    intro σ
    refine ⟨rfl, rfl, fun r hr => rfl, ?_⟩
    intro k hk
    simp at hk
  | cons v vs ih =>
    intro σ
    rw [boxAll]
    dsimp only
    obtain ⟨g1, g2, g3, g4⟩ := ih (σ.box v).1
    have hnext1 : (σ.box v).1.next = σ.next + 1 := rfl
    refine ⟨?_, ?_, ?_, ?_⟩
    · rw [g1, hnext1, List.length_cons]
      omega
    · rw [List.length_cons, range_map_shift, g2, hnext1]
      rfl
    · intro r hr
      rw [g3 r (by rw [hnext1]; omega)]
      exact box_frame σ v r hr
    · intro k hk
      cases k with
      | zero =>
        rw [g3 (σ.next + 0) (by rw [hnext1]; omega)]
        show (if σ.next + 0 = σ.next then [v] else σ.lists (σ.next + 0)) = [(v :: vs).getD 0 0]
        rw [if_pos (by omega), List.getD_cons_zero]
      | succ k =>
        have hidx : σ.next + (k + 1) = (σ.box v).1.next + k := by
          rw [hnext1]
          omega
        rw [hidx, g4 k (by rw [List.length_cons] at hk; omega), List.getD_cons_succ]

theorem batchLines_row_bound (t : TabStops) (f : α → Nat) :
    ∀ (ls : List (List α)) (st : BatchSt), (∀ x ∈ st.ts, x < st.nextId) →
      (∀ row ∈ (batchLines t f st ls).2, ∀ id ∈ row, id < (batchLines t f st ls).1.nextId) ∧
      st.nextId ≤ (batchLines t f st ls).1.nextId := by
  intro ls
  induction ls with
  | nil =>
    intro st h
    refine ⟨?_, le_refl _⟩
    intro row hrow
    rw [batchLines] at hrow
    simp at hrow
  | cons ln rest ih =>
    intro st h
    have hb1 : ∀ x ∈ (batchLineStep t f st ln).1.ts, x < (batchLineStep t f st ln).1.nextId := by
      intro x hx
      exact (ats_bound _ st 0 h).1 x (List.mem_of_mem_take hx)
    obtain ⟨g1, g2⟩ := ih (batchLineStep t f st ln).1 hb1
    rw [batchLines]
    dsimp only
    refine ⟨?_, ?_⟩
    · intro row hrow id hid
      rcases List.mem_cons.mp hrow with h1 | h1
      · subst h1
        exact lt_of_lt_of_le (hb1 id hid) g2
      · exact g1 row h1 id hid
    · exact le_trans (appendTabSizes_nextId_le _ 0 st) g2


theorem batchLines_ts_bound (t : TabStops) (f : α → Nat) :
    ∀ (ls : List (List α)) (st : BatchSt), (∀ x ∈ st.ts, x < st.nextId) →
      ∀ x ∈ (batchLines t f st ls).1.ts, x < (batchLines t f st ls).1.nextId := by
  intro ls
  induction ls with
  | nil =>
    intro st h
    exact h
  | cons ln rest ih =>
    intro st h
    rw [batchLines]
    dsimp only
    apply ih
    intro x hx
    exact (ats_bound _ st 0 h).1 x (List.mem_of_mem_take hx)

/-- **C10.**  `iter_tab_sizes` is deterministic and stateless across
calls: run against an explicit object store holding the caller's
`start_tab_sizes`/`end_tab_sizes` lists, it (a) leaves every
pre-existing list object — in particular the two hint lists and the
shared mutable default `[]` objects — unchanged, and (b) returns
exactly the pure function of the argument *values*, so two calls with
equal arguments return equal results and no state accumulates between
calls. -/
theorem C10_iter_tab_sizes_stateless (σ : Store) (lines : List (List α))
    (t : TabStops) (f : α → Nat) (rs re : Nat)
    (hrs : rs < σ.next) (hre : re < σ.next) :
    (∀ r, r < σ.next →
      (store_iter_tab_sizes σ lines t f rs re).1.lists r = σ.lists r) ∧
    (store_iter_tab_sizes σ lines t f rs re).2 =
      iter_tab_sizes lines t f (σ.lists rs) (σ.lists re) := by
  obtain ⟨b1, b2, b3, b4⟩ := boxAll_spec (σ.lists rs) σ
  have hrel0 : StoreRel σ.next (boxAll σ (σ.lists rs)).1 (batchInit (σ.lists rs)) := by
    constructor
    · exact b1
    · intro k hk
      exact b4 k hk
  have hts0 : (boxAll σ (σ.lists rs)).2
      = (batchInit (σ.lists rs)).ts.map (fun x => σ.next + x) := by
    rw [b2]
    rfl
  have hb0 : ∀ x ∈ (batchInit (σ.lists rs)).ts, x < (batchInit (σ.lists rs)).nextId := by
    intro x hx
    exact List.mem_range.mp hx
  obtain ⟨l1, l2, l3, l4⟩ := storeLines_sim t f σ.next lines (boxAll σ (σ.lists rs)).1
    (batchInit (σ.lists rs)) hrel0 hb0
  have hre_read : (storeLines t f (boxAll σ (σ.lists rs)).1
      ((batchInit (σ.lists rs)).ts.map (fun x => σ.next + x)) lines).1.lists re
      = σ.lists re := by
    rw [l4 re hre]
    exact b3 re hre
  have hunfold : store_iter_tab_sizes σ lines t f rs re
      = ((storeAppendTabSizes
            (storeLines t f (boxAll σ (σ.lists rs)).1 (boxAll σ (σ.lists rs)).2 lines).1
            (storeLines t f (boxAll σ (σ.lists rs)).1 (boxAll σ (σ.lists rs)).2 lines).2.1 0
            ((storeLines t f (boxAll σ (σ.lists rs)).1 (boxAll σ (σ.lists rs)).2 lines).1.lists
              re)).1,
         (storeLines t f (boxAll σ (σ.lists rs)).1 (boxAll σ (σ.lists rs)).2 lines).2.2.map
           (fun ids => ids.map (fun id =>
             ((storeAppendTabSizes
                (storeLines t f (boxAll σ (σ.lists rs)).1 (boxAll σ (σ.lists rs)).2 lines).1
                (storeLines t f (boxAll σ (σ.lists rs)).1 (boxAll σ (σ.lists rs)).2 lines).2.1 0
                ((storeLines t f (boxAll σ (σ.lists rs)).1
                  (boxAll σ (σ.lists rs)).2 lines).1.lists re)).1.lists id).getD 0 0))) := rfl
  rw [hunfold, hts0, hre_read, l2]
  have hbB : ∀ x ∈ (batchLines t f (batchInit (σ.lists rs)) lines).1.ts,
      x < (batchLines t f (batchInit (σ.lists rs)) lines).1.nextId :=
    batchLines_ts_bound t f lines (batchInit (σ.lists rs)) hb0
  obtain ⟨f1, f2, f3⟩ := sats_sim σ.next (σ.lists re)
    (storeLines t f (boxAll σ (σ.lists rs)).1
      ((batchInit (σ.lists rs)).ts.map (fun x => σ.next + x)) lines).1
    (batchLines t f (batchInit (σ.lists rs)) lines).1 0 l1 hbB
  constructor
  · intro r hr
    rw [f3 r hr, l4 r hr]
    exact b3 r hr
  · obtain ⟨hrow_bound, -⟩ := batchLines_row_bound t f lines (batchInit (σ.lists rs)) hb0
    obtain ⟨fr1, fr2⟩ := f1
    rw [l3, List.map_map]
    have hpure : iter_tab_sizes lines t f (σ.lists rs) (σ.lists re)
        = (batchLines t f (batchInit (σ.lists rs)) lines).2.map
            (fun ids => ids.map (appendTabSizes
              (batchLines t f (batchInit (σ.lists rs)) lines).1 0 (σ.lists re)).val) := rfl
    rw [hpure]
    apply List.map_congr_left
    intro row hrow
    show (row.map (fun x => σ.next + x)).map _ = row.map (appendTabSizes
      (batchLines t f (batchInit (σ.lists rs)) lines).1 0 (σ.lists re)).val
    rw [List.map_map]
    apply List.map_congr_left
    intro id hid
    have hidlt : id < (appendTabSizes (batchLines t f (batchInit (σ.lists rs)) lines).1 0
        (σ.lists re)).nextId :=
      lt_of_lt_of_le (hrow_bound row hrow id hid) (appendTabSizes_nextId_le _ 0 _)
    show ((storeAppendTabSizes
        (storeLines t f (boxAll σ (σ.lists rs)).1
          ((batchInit (σ.lists rs)).ts.map (fun x => σ.next + x)) lines).1
        ((batchLines t f (batchInit (σ.lists rs)) lines).1.ts.map (fun x => σ.next + x)) 0
        (σ.lists re)).1.lists (σ.next + id)).getD 0 0
      = (appendTabSizes (batchLines t f (batchInit (σ.lists rs)) lines).1 0
          (σ.lists re)).val id
    rw [fr2 id hidlt]
    rfl


theorem C10_iter_tab_sizes_stateless_witness :
    ((0 : Nat) < (⟨2, fun _ => ([] : List Int)⟩ : Store).next ∧
      (1 : Nat) < (⟨2, fun _ => ([] : List Int)⟩ : Store).next) ∧
    ((∀ r, r < (⟨2, fun _ => ([] : List Int)⟩ : Store).next →
        (store_iter_tab_sizes (⟨2, fun _ => ([] : List Int)⟩ : Store)
          ([[1, 0], [3, 0]] : List (List Nat)) ⟨1, 1, 1⟩ id 0 1).1.lists r
          = (⟨2, fun _ => ([] : List Int)⟩ : Store).lists r) ∧
      (store_iter_tab_sizes (⟨2, fun _ => ([] : List Int)⟩ : Store)
          ([[1, 0], [3, 0]] : List (List Nat)) ⟨1, 1, 1⟩ id 0 1).2
        = iter_tab_sizes ([[1, 0], [3, 0]] : List (List Nat)) ⟨1, 1, 1⟩ id
            ((⟨2, fun _ => ([] : List Int)⟩ : Store).lists 0)
            ((⟨2, fun _ => ([] : List Int)⟩ : Store).lists 1)) :=
  ⟨⟨by decide, by decide⟩,
    C10_iter_tab_sizes_stateless (⟨2, fun _ => ([] : List Int)⟩ : Store)
      ([[1, 0], [3, 0]] : List (List Nat)) ⟨1, 1, 1⟩ id 0 1 (by decide) (by decide)⟩

end ElasticTabstops
